import Mathlib

/-!
Shallow embedding of the rendering core of `hgrep` (`src/printer.rs`,
`src/syntect.rs`): the terminal code-chunk printer.  Pure Rust functions
become Lean functions over explicit data; the byte stream written to the
output sink is modelled as a list of output tokens (`Out`) carrying the
exact escape strings and text written; panics (`unwrap`) and the unbounded
wrap loop are modelled with `Option` and explicit fuel.  External
collaborators (the `rgb2ansi256` crate's nearest-256-color function, the
Unicode East-Asian width table, the syntect highlighter and syntax
resolver) enter as parameters, bundled in `Ext` or passed explicitly.
-/

set_option autoImplicit false

namespace Hgrep

/-- Terminal color support, from `printer.rs` (`TermColorSupport`). -/
inductive TermColorSupport where
  | ansi16
  | ansi256
  | trueColor
deriving DecidableEq, Repr

/-- `syntect::highlighting::Color`: `(r, g, b, a)` bytes.  The `a` channel is
an encoding tag (see `Canvas.set_fg`/`set_bg`). -/
structure Color where
  r : Nat
  g : Nat
  b : Nat
  a : Nat
deriving DecidableEq, Repr

/-- Font style bits of `syntect::highlighting::FontStyle` that the canvas
reads (`BOLD`, `UNDERLINE`; the italic bit is never read by this code). -/
structure FontStyle where
  bold : Bool
  underline : Bool
deriving DecidableEq, Repr

/-- `syntect::highlighting::Style` as consumed by `Canvas::draw_texts`. -/
structure Style where
  foreground : Color
  background : Color
  font_style : FontStyle
deriving DecidableEq, Repr

/-- The theme settings fields read by `syntect.rs`. -/
structure ThemeSettings where
  foreground : Option Color
  background : Option Color
  gutter_foreground : Option Color
  line_highlight : Option Color
deriving DecidableEq, Repr

/-- `syntect::highlighting::Theme`, restricted to the fields read. -/
structure Theme where
  settings : ThemeSettings
deriving DecidableEq, Repr

/-- `PrinterOptions` (`printer.rs`), with the fields `syntect.rs` reads:
`tab_width`, `grid`, `background_color`, `term_width`, `color_support`. -/
structure PrinterOptions where
  tab_width : Nat
  grid : Bool
  background_color : Bool
  term_width : Nat
  color_support : TermColorSupport
deriving DecidableEq, Repr

/-- External pure functions the canvas depends on: `rgb256` models
`rgb2ansi256::rgb_to_ansi256` (nearest 256-color index) and `cw` models
`UnicodeWidthChar::width_cjk(c).unwrap_or(0)` (East-Asian-aware column
width, 0 for zero-width and control characters). -/
structure Ext where
  rgb256 : Nat → Nat → Nat → Nat
  cw : Char → Nat

/-- One token of the byte stream written to the output sink: a CSI escape
sequence (its exact bytes), a run of plain text, or a newline byte written
by `writeln!`. -/
inductive Out where
  | esc (s : String)
  | txt (s : List Char)
  | nl
deriving DecidableEq, Repr

/-- The `Canvas` struct of `syntect.rs` minus the output sink (output is
returned, not stored). -/
structure Canvas where
  tab_width : Nat
  theme : Theme
  true_color : Bool
  background : Bool
  match_color : Option Color
deriving Repr

namespace Canvas

/-- `Canvas::set_bg`: emit the background-color escape for `c` according to
the `a`-channel encoding tag. -/
def set_bg (ext : Ext) (cv : Canvas) (c : Color) : List Out :=
  if c.a = 0 then
    if c.r ≤ 7 then [Out.esc ("\x1b[" ++ toString (c.r + 40) ++ "m")]
    else [Out.esc ("\x1b[48;5;" ++ toString c.r ++ "m")]
  else if c.a = 1 then []
  else if cv.true_color then
    [Out.esc ("\x1b[48;2;" ++ toString c.r ++ ";" ++ toString c.g ++ ";" ++
        toString c.b ++ "m")]
  else [Out.esc ("\x1b[48;5;" ++ toString (ext.rgb256 c.r c.g c.b) ++ "m")]

/-- `Canvas::set_fg`: emit the foreground-color escape for `c` according to
the `a`-channel encoding tag. -/
def set_fg (ext : Ext) (cv : Canvas) (c : Color) : List Out :=
  if c.a = 0 then
    if c.r ≤ 7 then [Out.esc ("\x1b[" ++ toString (c.r + 30) ++ "m")]
    else [Out.esc ("\x1b[38;5;" ++ toString c.r ++ "m")]
  else if c.a = 1 then []
  else if cv.true_color then
    [Out.esc ("\x1b[38;2;" ++ toString c.r ++ ";" ++ toString c.g ++ ";" ++
        toString c.b ++ "m")]
  else [Out.esc ("\x1b[38;5;" ++ toString (ext.rgb256 c.r c.g c.b) ++ "m")]

/-- `Canvas::set_default_bg`: theme background, only in background mode. -/
def set_default_bg (ext : Ext) (cv : Canvas) : List Out :=
  if cv.background then
    match cv.theme.settings.background with
    | some bg => cv.set_bg ext bg
    | none => []
  else []

/-- `Canvas::set_bold`. -/
def set_bold : List Out := [Out.esc "\x1b[1m"]

/-- `Canvas::set_underline`. -/
def set_underline : List Out := [Out.esc "\x1b[4m"]

/-- `Canvas::set_font_style`. -/
def set_font_style (fs : FontStyle) : List Out :=
  (if fs.bold then set_bold else []) ++ (if fs.underline then set_underline else [])

/-- `Canvas::unset_font_style`. -/
def unset_font_style (fs : FontStyle) : List Out :=
  (if fs.bold then [Out.esc "\x1b[22m"] else []) ++
    (if fs.underline then [Out.esc "\x1b[24m"] else [])

/-- `Canvas::reset_color`: the `ESC[0m` reset. -/
def reset_color : List Out := [Out.esc "\x1b[0m"]

/-- `Canvas::draw_spaces`. -/
def draw_spaces (num : Nat) : List Out := [Out.txt (List.replicate num ' ')]

end Canvas

/-- Result of `Canvas::draw_text` (`LineDrawState` in `syntect.rs`):
either the whole text fit (`cont` with the total width drawn) or drawing
broke at some character (`brk` with the undrawn rest). -/
inductive LineDrawState where
  | cont (w : Nat)
  | brk (rest : List Char)
deriving DecidableEq, Repr

/-- Result of `Canvas::draw_texts` (`LineDrawn` in `syntect.rs`). -/
inductive LineDrawn where
  | done
  | wrap (rest : List Char) (idx : Nat)
deriving DecidableEq, Repr

namespace Canvas

/-- Loop body of `Canvas::draw_text`: iterate over the characters with the
accumulated width `width`; a tab (when `tab_width > 0`) contributes
`tab_width` columns drawn as spaces, any other character contributes its
`cw` width; break when the next character would push the width past
`limit`. -/
def draw_textAux (ext : Ext) (cv : Canvas) (limit : Nat) :
    List Char → Nat → List Out × LineDrawState
  | [], width => ([], LineDrawState.cont width)
  | c :: cs, width =>
    if c = '\t' ∧ 0 < cv.tab_width then
      let w := cv.tab_width
      if limit < width + w then
        (draw_spaces (limit - width), LineDrawState.brk cs)
      else
        let r := draw_textAux ext cv limit cs (width + w)
        (draw_spaces w ++ r.1, r.2)
    else
      let w := ext.cw c
      if limit < width + w then
        ([], LineDrawState.brk (c :: cs))
      else
        let r := draw_textAux ext cv limit cs (width + w)
        (Out.txt [c] :: r.1, r.2)

/-- `Canvas::draw_text(text, limit)`. -/
def draw_text (ext : Ext) (cv : Canvas) (text : List Char) (limit : Nat) :
    List Out × LineDrawState :=
  draw_textAux ext cv limit text 0

/-- `Canvas::fill_spaces`. -/
def fill_spaces (written_width max_width : Nat) : List Out :=
  (if written_width < max_width then draw_spaces (max_width - written_width) else []) ++
    reset_color

/-- Loop body of `Canvas::draw_texts` over the remaining `parts`, with the
current part index and accumulated width; returns either the final width
(`Sum.inl`) or the break information (`Sum.inr (rest, idx)`). -/
def draw_textsAux (ext : Ext) (cv : Canvas) (matched : Bool) (max_width : Nat) :
    List (Style × List Char) → Nat → Nat → List Out × (Nat ⊕ (List Char × Nat))
  | [], _, width => ([], Sum.inl width)
  | (style, text) :: rest, idx, width =>
    let pre :=
      (if ¬matched ∧ cv.background then cv.set_bg ext style.background else []) ++
        cv.set_fg ext style.foreground ++ set_font_style style.font_style
    match cv.draw_text ext text (max_width - width) with
    | (os, LineDrawState.cont w) =>
      let r := draw_textsAux ext cv matched max_width rest (idx + 1) (width + w)
      (pre ++ os ++ unset_font_style style.font_style ++ r.1, r.2)
    | (os, LineDrawState.brk rst) =>
      (pre ++ os ++ reset_color, Sum.inr (rst, idx))

/-- `Canvas::draw_texts(parts, matched, max_width)`. -/
def draw_texts (ext : Ext) (cv : Canvas) (parts : List (Style × List Char))
    (matched : Bool) (max_width : Nat) : List Out × LineDrawn :=
  let pre0 :=
    if matched then
      match cv.match_color with
      | some bg => cv.set_bg ext bg
      | none => []
    else []
  match draw_textsAux ext cv matched max_width parts 0 0 with
  | (os, Sum.inl width) =>
    let tail :=
      (if width = 0 ∧ ¬matched then cv.set_default_bg ext else []) ++
        (if matched ∨ cv.background then fill_spaces width max_width else reset_color)
    (pre0 ++ os ++ tail, LineDrawn.done)
  | (os, Sum.inr (rst, idx)) => (pre0 ++ os, LineDrawn.wrap rst idx)

end Canvas

/-- Fueled floor-log10 digit counter backing `num_digits`: counts how many
times `n` can be divided by 10 before falling under 10.  `fuel ≥ n`
suffices (`num_digitsGo_eq_log`). -/
def num_digitsGo : Nat → Nat → Nat
  | 0, _ => 1
  | Nat.succ fuel, n => if n < 10 then 1 else num_digitsGo fuel (n / 10) + 1

/-- `num_digits` of `syntect.rs`, whose source is
`(n as f64).log10() as u16 + 1`; the `f64` base-10 logarithm is idealized
here as the exact mathematical floor logarithm (this agrees with a
faithfully rounded `log10` on every exactly representable `u64`; note that
for `n = 0` the Rust cast of `-inf` to `u16` saturates to `0`, matching
`Nat.log 10 0 = 0`). -/
def num_digits (n : Nat) : Nat := num_digitsGo n n

theorem num_digitsGo_eq_log : ∀ fuel n, n ≤ fuel → num_digitsGo fuel n = Nat.log 10 n + 1 := by
  intro fuel
  induction fuel with
  | zero =>
    intro n hn
    interval_cases n
    simp [num_digitsGo]
  | succ fuel ih =>
    intro n hn
    by_cases h10 : n < 10
    · have : Nat.log 10 n = 0 := Nat.log_eq_zero_iff.mpr (Or.inl h10)
      simp [num_digitsGo, h10, this]
    · have hd : n / 10 ≤ fuel := by
        have h1 : n / 10 < n := Nat.div_lt_self (by omega) (by omega)
        omega
      have hlog : Nat.log 10 n = Nat.log 10 (n / 10) + 1 := by
        have h1 : 0 < Nat.log 10 n := Nat.log_pos (by omega) (by omega)
        have h2 : Nat.log 10 (n / 10) = Nat.log 10 n - 1 := Nat.log_div_base 10 n
        omega
      simp only [num_digitsGo, if_neg h10, ih _ hd, hlog]

/-- `num_digits` computes the exact decimal floor logarithm plus one. -/
theorem num_digits_eq_log (n : Nat) : num_digits n = Nat.log 10 n + 1 :=
  num_digitsGo_eq_log n n le_rfl

/-- The `Drawer` struct of `syntect.rs` minus the output sink. -/
structure Drawer where
  theme : Theme
  grid : Bool
  term_width : Nat
  lnum_width : Nat
  background : Bool
  gutter_color : Color
  canvas : Canvas
deriving Repr

namespace Drawer

/-- `Drawer::new(out, opts, theme, chunks)`. -/
def new (opts : PrinterOptions) (theme : Theme) (chunks : List (Nat × Nat)) : Drawer :=
  let last_lnum := ((chunks.getLast?).map Prod.snd).getD 0
  let lnum_width0 := num_digits last_lnum
  let lnum_width := if 1 < chunks.length then max lnum_width0 3 else lnum_width0
  let gutter_color := (theme.settings.gutter_foreground).getD ⟨128, 128, 128, 255⟩
  { theme := theme
    grid := opts.grid
    term_width := opts.term_width
    lnum_width := lnum_width
    background := opts.background_color
    gutter_color := gutter_color
    canvas :=
      { theme := theme
        true_color := opts.color_support = TermColorSupport.trueColor
        tab_width := opts.tab_width
        background := opts.background_color
        match_color :=
          match theme.settings.line_highlight with
          | some c => some c
          | none => theme.settings.background } }

/-- `Drawer::gutter_width`. -/
def gutter_width (d : Drawer) : Nat :=
  if d.grid then d.lnum_width + 4 else d.lnum_width + 2

/-- `Drawer::draw_horizontal_line(sep)`. -/
def draw_horizontal_line (ext : Ext) (d : Drawer) (sep : Char) : List Out :=
  d.canvas.set_fg ext d.gutter_color ++ d.canvas.set_default_bg ext ++
    [Out.txt (List.replicate (d.gutter_width - 2) '─')] ++
    [Out.txt [sep]] ++
    [Out.txt (List.replicate (d.term_width - d.gutter_width + 1) '─')] ++
    Canvas.reset_color ++ [Out.nl]

/-- `Drawer::draw_line_number(lnum, matched)`: `none` models the panic of
`self.theme.settings.foreground.unwrap()` when `matched` and the theme has
no default foreground. -/
def draw_line_number (ext : Ext) (d : Drawer) (lnum : Nat) (matched : Bool) :
    Option (List Out) :=
  let fg? := if matched then d.theme.settings.foreground else some d.gutter_color
  match fg? with
  | none => none
  | some fg =>
    some
      (d.canvas.set_fg ext fg ++ d.canvas.set_default_bg ext ++
        Canvas.draw_spaces (d.lnum_width - num_digits lnum) ++
        [Out.txt (' ' :: (toString lnum).data)] ++
        (if d.grid then
            (if matched then d.canvas.set_fg ext d.gutter_color else []) ++
              [Out.txt [' ', '│']]
          else []) ++
        d.canvas.set_default_bg ext ++ [Out.txt [' ']])

/-- `Drawer::draw_wrapping_gutter`. -/
def draw_wrapping_gutter (ext : Ext) (d : Drawer) : List Out :=
  d.canvas.set_fg ext d.gutter_color ++ d.canvas.set_default_bg ext ++
    Canvas.draw_spaces (d.lnum_width + 2) ++
    (if d.grid then [Out.txt ['│', ' ']] else [])

/-- `Drawer::draw_separator_line`: the `...` rule drawn between two chunks.
Note the source ends it with `writeln!` and deliberately no
`reset_color` ("We don't need to reset color for next line"). -/
def draw_separator_line (ext : Ext) (d : Drawer) : List Out :=
  let left_margin := d.lnum_width + 1 - 3
  let head :=
    if d.grid then ([Out.txt ['.', '.', '.', ' ', '├']], 5)
    else ([Out.txt ['.', '.', '.']], 3)
  d.canvas.set_fg ext d.gutter_color ++ d.canvas.set_default_bg ext ++
    Canvas.draw_spaces left_margin ++ head.1 ++ d.canvas.set_default_bg ext ++
    [Out.txt (List.replicate (d.term_width - left_margin - head.2) '─')] ++ [Out.nl]

end Drawer

/-- Trailing-newline chomp performed at the top of `Drawer::draw_line`:
drop a final `'\n'` (and a preceding `'\r'`) from a slice. -/
def chomp (s : List Char) : List Char :=
  if s.getLast? = some '\n' then
    let t := s.dropLast
    if t.getLast? = some '\r' then t.dropLast else t
  else s

/-- Apply `chomp` to the last part's slice (`parts.last_mut()` in the
source). -/
def chompLastPart : List (Style × List Char) → List (Style × List Char)
  | [] => []
  | [(st, s)] => [(st, chomp s)]
  | p :: q :: rest => p :: chompLastPart (q :: rest)

namespace Drawer

/-- The re-slicing step of the wrap loop in `Drawer::draw_line`: when the
break left no rest the broken part is dropped entirely
(`parts = &mut parts[idx + 1..]`); otherwise the remaining parts start at
`idx` with the head slice replaced by `rest`. -/
def wrapAdvance (parts : List (Style × List Char)) (rest : List Char) (idx : Nat) :
    List (Style × List Char) :=
  if rest = [] then parts.drop (idx + 1)
  else
    match parts.drop idx with
    | [] => []
    | (st, _) :: tl => (st, rest) :: tl

/-- The `while let LineDrawn::Wrap(..)` loop of `Drawer::draw_line`,
including the final `writeln!`; `fuel` bounds the number of iterations
(`none` models non-termination of the source loop). -/
def draw_lineLoop (ext : Ext) (d : Drawer) (matched : Bool) (body_width : Nat) :
    Nat → List (Style × List Char) → Option (List Out)
  | 0, _ => none
  | Nat.succ fuel, parts =>
    match d.canvas.draw_texts ext parts matched body_width with
    | (os, LineDrawn.done) => some (os ++ [Out.nl])
    | (os, LineDrawn.wrap rest idx) =>
      match draw_lineLoop ext d matched body_width fuel (wrapAdvance parts rest idx) with
      | none => none
      | some os2 => some (os ++ [Out.nl] ++ d.draw_wrapping_gutter ext ++ os2)

/-- `Drawer::draw_line(parts, lnum, matched)`. -/
def draw_line (ext : Ext) (d : Drawer) (fuel : Nat) (parts : List (Style × List Char))
    (lnum : Nat) (matched : Bool) : Option (List Out) :=
  let parts2 := chompLastPart parts
  let body_width := d.term_width - d.gutter_width
  match d.draw_line_number ext lnum matched with
  | none => none
  | some g =>
    match draw_lineLoop ext d matched body_width fuel parts2 with
    | none => none
    | some body => some (g ++ body)

end Drawer

/-- Loop of `LinesInclusive`: scan the buffer byte by byte, `acc` holding
the bytes of the current line read so far; a newline byte (`10`) closes
the current line (newline included) and bumps the line number; a final
line without a newline is yielded as-is; an empty tail with an empty
`acc` yields nothing. -/
def linesInclusiveGo (lnum : Nat) (acc : List Nat) : List Nat → List (List Nat × Nat)
  | [] => if acc = [] then [] else [(acc, lnum)]
  | b :: rest =>
    if b = 10 then (acc ++ [10], lnum) :: linesInclusiveGo (lnum + 1) [] rest
    else linesInclusiveGo lnum (acc ++ [b]) rest

/-- `LinesInclusive::new(buf)` run to a list: `(slice, line_number)` pairs,
line numbers starting at 1. -/
def linesInclusive (buf : List Nat) : List (List Nat × Nat) :=
  linesInclusiveGo 1 [] buf

/-- `chunk::File`, restricted to the fields the printer reads. -/
structure File where
  path : String
  contents : List Nat
  chunks : List (Nat × Nat)
  line_numbers : List Nat
deriving Repr

namespace Drawer

/-- The matched-line check at the top of `Drawer::draw_body`'s loop body:
`matched` is true iff the head of the remaining matched line numbers
equals `lnum`, in which case it is consumed. -/
def matchedStep (matched : List Nat) (lnum : Nat) : Bool × List Nat :=
  match matched with
  | n :: ms => if n = lnum then (true, ms) else (false, n :: ms)
  | [] => (false, [])

/-- Loop body of `Drawer::draw_body`: iterate the numbered lines with the
current chunk, the remaining chunks and the remaining matched line
numbers.  Lines before the current chunk are skipped (the highlighter
advances but nothing is written); lines inside it are drawn via
`draw_line` with the tokenization `hl lnum`; at the chunk end either the
separator line is drawn and the next chunk begins, or the loop breaks. -/
def draw_bodyAux (ext : Ext) (d : Drawer) (hl : Nat → List (Style × List Char))
    (fuel : Nat) : List (List Nat × Nat) → Nat × Nat → List (Nat × Nat) → List Nat →
    Option (List Out)
  | [], _, _, _ => some []
  | (_, lnum) :: rest, (s, e), chunks, matched =>
    if lnum < s then draw_bodyAux ext d hl fuel rest (s, e) chunks matched
    else if lnum ≤ e then
      let m := matchedStep matched lnum
      match draw_line ext d fuel (hl lnum) lnum m.1 with
      | none => none
      | some lineOut =>
        if lnum = e then
          match chunks with
          | c :: cs =>
            match draw_bodyAux ext d hl fuel rest c cs m.2 with
            | none => none
            | some os => some (lineOut ++ d.draw_separator_line ext ++ os)
          | [] => some lineOut
        else
          match draw_bodyAux ext d hl fuel rest (s, e) chunks m.2 with
          | none => none
          | some os => some (lineOut ++ os)
    else draw_bodyAux ext d hl fuel rest (s, e) chunks matched

/-- `Drawer::draw_body(file, hl)`; `none` on the `assert!` that `chunks`
is non-empty, on a `draw_line` panic, or on wrap-loop fuel exhaustion. -/
def draw_body (ext : Ext) (d : Drawer) (hl : Nat → List (Style × List Char))
    (fuel : Nat) (file : File) : Option (List Out) :=
  match file.chunks with
  | [] => none
  | c :: cs =>
    draw_bodyAux ext d hl fuel (linesInclusive file.contents) c cs file.line_numbers

/-- `width_cjk` of a string: sum of the character widths. -/
def strWidth (ext : Ext) (s : String) : Nat := (s.data.map ext.cw).sum

/-- `Drawer::draw_header(path)`. -/
def draw_header (ext : Ext) (d : Drawer) (path : String) : List Out :=
  d.draw_horizontal_line ext '─' ++ d.canvas.set_default_bg ext ++ Canvas.set_bold ++
    [Out.txt (' ' :: path.data)] ++
    (if d.background then Canvas.fill_spaces (strWidth ext path + 1) d.term_width
      else Canvas.reset_color) ++
    [Out.nl] ++ (if d.grid then d.draw_horizontal_line ext '┬' else [])

/-- `Drawer::draw_footer`. -/
def draw_footer (ext : Ext) (d : Drawer) : List Out :=
  if d.grid then d.draw_horizontal_line ext '┴' else []

end Drawer

/-- The rendering part of `SyntectPrinter::print`: header, body, footer
into the per-file buffer. -/
def renderFile (ext : Ext) (opts : PrinterOptions) (theme : Theme)
    (hl : Nat → List (Style × List Char)) (fuel : Nat) (file : File) :
    Option (List Out) :=
  let d := Drawer.new opts theme file.chunks
  match Drawer.draw_body ext d hl fuel file with
  | none => none
  | some body =>
    some (Drawer.draw_header ext d file.path ++ body ++ Drawer.draw_footer ext d)

/-- Events observable on the shared output sink: taking and releasing the
lock, writing bytes, flushing. -/
inductive SinkEvent where
  | lock
  | write (buf : List Out)
  | flush
  | unlock
deriving DecidableEq, Repr

/-- `SyntectPrinter::print(file)` as a trace of sink events: an empty file
returns `Ok` immediately with no sink interaction; a syntax-resolution
error is propagated before anything is written; otherwise the file is
rendered into a private buffer and the sink is locked only for the final
`write_all` plus `flush`. -/
def printTrace (ext : Ext) (opts : PrinterOptions) (theme : Theme)
    (hl : Nat → List (Style × List Char)) (fuel : Nat)
    (syntaxRes : Except String Unit) (file : File) :
    Option (Except String (List SinkEvent)) :=
  if file.chunks = [] ∨ file.line_numbers = [] then some (Except.ok [])
  else
    match syntaxRes with
    | Except.error e => some (Except.error e)
    | Except.ok _ =>
      match renderFile ext opts theme hl fuel file with
      | none => none
      | some buf =>
        some (Except.ok [SinkEvent.lock, SinkEvent.write buf, SinkEvent.flush,
          SinkEvent.unlock])

/-- The extension-override table at the top of
`SyntectPrinter::find_syntax`. -/
def overrideName : Option String → Option String
  | some "fs" => some "F#"
  | some "h" => some "C++"
  | some "pac" => some "JavaScript (Babel)"
  | _ => none

/-- `SyntectPrinter::find_syntax(path)`, parameterized by the external
syntect engine: `find_by_name` (`SyntaxSet::find_syntax_by_name`),
`find_for_file` (`SyntaxSet::find_syntax_for_file`, which does IO and can
fail — its error is propagated by `?` in the source) and the plain-text
fallback. -/
def find_syntax {π α ε : Type} (extension : π → Option String)
    (find_by_name : String → Option α) (find_for_file : π → Except ε (Option α))
    (plain : α) (path : π) : Except ε α :=
  match (overrideName (extension path)).bind find_by_name with
  | some s => Except.ok s
  | none =>
    match find_for_file path with
    | Except.error e => Except.error e
    | Except.ok o => Except.ok (o.getD plain)

/-- The escape-balance state machine over the output tokens: the state is
`true` when the terminal style is the default.  `ESC[0m` returns to the
default; any other CSI sequence leaves it. -/
def stepSt (st : Bool) : Out → Bool
  | Out.esc s => s == "\x1b[0m"
  | Out.txt _ => st
  | Out.nl => st

/-- Style state after processing a token list starting from state `st`. -/
def stAfter (st : Bool) (os : List Out) : Bool := os.foldl stepSt st

/-- `okFrom st os`: starting from style state `st`, every newline token in
`os` is reached with the terminal style at the default. -/
def okFrom (st : Bool) : List Out → Bool
  | [] => true
  | Out.nl :: r => st && okFrom st r
  | Out.esc s :: r => okFrom (s == "\x1b[0m") r
  | Out.txt _ :: r => okFrom st r

/-- Escape balance of a full output: every `\n` is written with the
terminal style at the default. -/
def balanced (os : List Out) : Bool := okFrom true os

end Hgrep

/-! ### Concrete sample instances used by witnesses and counterexamples -/

namespace Hgrep

/-- Sample external functions: constant 256-color index, every character
one column wide. -/
def sampleExt : Ext := ⟨fun _ _ _ => 99, fun _ => 1⟩

/-- Sample external functions whose width function gives every character
two columns (used to exhibit a character wider than the body width). -/
def wideExt : Ext := ⟨fun _ _ _ => 99, fun _ => 2⟩

/-- Sample theme: a default foreground, no background, no gutter override,
no line-highlight color. -/
def sampleTheme : Theme := ⟨⟨some ⟨1, 2, 3, 255⟩, none, none, none⟩⟩

/-- Sample theme with no default foreground. -/
def noFgTheme : Theme := ⟨⟨none, none, none, none⟩⟩

/-- Sample options: tab width 4, grid, no background fill, 30 columns,
true-color. -/
def sampleOpts : PrinterOptions := ⟨4, true, false, 30, TermColorSupport.trueColor⟩

/-- Sample style. -/
def sampleStyle : Style := ⟨⟨10, 20, 30, 255⟩, ⟨0, 0, 0, 255⟩, ⟨false, false⟩⟩

/-- Sample highlighter oracle: every line tokenizes to one styled slice
`"x\n"`. -/
def sampleHl : Nat → List (Style × List Char) := fun _ => [(sampleStyle, ['x', '\n'])]

/-- Three-line file with two chunks `(1,1)` and `(3,3)` (so a chunk
separator line is drawn between them) and matches on lines 1 and 3. -/
def twoChunkFile : File := ⟨"f.rs", [97, 10, 98, 10, 99, 10], [(1, 1), (3, 3)], [1, 3]⟩

/-- Three-line file with the single chunk `(1,3)` and a match on line 2. -/
def oneChunkFile : File := ⟨"f.rs", [97, 10, 98, 10, 99, 10], [(1, 3)], [2]⟩

/-- A file with no chunks and no matches. -/
def emptyFile : File := ⟨"x.txt", [], [], []⟩

/-- Sample canvas in true-color mode. -/
def tcCanvas : Canvas := ⟨4, sampleTheme, true, false, none⟩

/-- Sample canvas in non-true-color (256-color) mode. -/
def idxCanvas : Canvas := ⟨4, sampleTheme, false, false, none⟩

end Hgrep

/-! ### Claims about color encoding, syntax resolution, locking, and the gutter -/

namespace Hgrep

/-- Number of `lock` events in a sink trace. -/
def countLocks (evs : List SinkEvent) : Nat :=
  evs.countP fun e =>
    match e with
    | SinkEvent.lock => true
    | _ => false

/-- C2: `Canvas::set_fg` / `set_bg` emit exactly the escape dictated by the
`a`-channel encoding: `a = 0, r ≤ 7` gives the 16-color direct sequence
`ESC[r+30m` / `ESC[r+40m`; `a = 0, r > 7` the indexed `ESC[38;5;rm` /
`ESC[48;5;rm`; `a = 1` nothing; otherwise the 24-bit sequence when
`true_color` and the nearest-256-color indexed sequence when not. -/
theorem set_fg_set_bg_encoding (ext : Ext) (cv : Canvas) (c : Color) :
    (c.a = 0 → c.r ≤ 7 →
      cv.set_fg ext c = [Out.esc ("\x1b[" ++ toString (c.r + 30) ++ "m")] ∧
      cv.set_bg ext c = [Out.esc ("\x1b[" ++ toString (c.r + 40) ++ "m")]) ∧
    (c.a = 0 → 7 < c.r →
      cv.set_fg ext c = [Out.esc ("\x1b[38;5;" ++ toString c.r ++ "m")] ∧
      cv.set_bg ext c = [Out.esc ("\x1b[48;5;" ++ toString c.r ++ "m")]) ∧
    (c.a = 1 → cv.set_fg ext c = [] ∧ cv.set_bg ext c = []) ∧
    (c.a ≠ 0 → c.a ≠ 1 → cv.true_color = true →
      cv.set_fg ext c = [Out.esc ("\x1b[38;2;" ++ toString c.r ++ ";" ++
        toString c.g ++ ";" ++ toString c.b ++ "m")] ∧
      cv.set_bg ext c = [Out.esc ("\x1b[48;2;" ++ toString c.r ++ ";" ++
        toString c.g ++ ";" ++ toString c.b ++ "m")]) ∧
    (c.a ≠ 0 → c.a ≠ 1 → cv.true_color = false →
      cv.set_fg ext c = [Out.esc ("\x1b[38;5;" ++ toString (ext.rgb256 c.r c.g c.b) ++ "m")] ∧
      cv.set_bg ext c = [Out.esc ("\x1b[48;5;" ++ toString (ext.rgb256 c.r c.g c.b) ++ "m")]) := by
  refine ⟨fun h1 h2 => ?_, fun h1 h2 => ?_, fun h1 => ?_,
    fun h1 h2 h3 => ?_, fun h1 h2 h3 => ?_⟩ <;>
    simp [Canvas.set_fg, Canvas.set_bg, h1, *]

/-- Witness for C2: each branch of the encoding evaluated at a concrete
color. -/
theorem set_fg_set_bg_encoding_witness :
    (tcCanvas.set_fg sampleExt ⟨3, 0, 0, 0⟩ = [Out.esc ("\x1b[" ++ toString (3 + 30) ++ "m")]) ∧
    (tcCanvas.set_bg sampleExt ⟨9, 0, 0, 0⟩ = [Out.esc ("\x1b[48;5;" ++ toString 9 ++ "m")]) ∧
    (tcCanvas.set_fg sampleExt ⟨5, 6, 7, 1⟩ = []) ∧
    (tcCanvas.set_fg sampleExt ⟨5, 6, 7, 255⟩ = [Out.esc ("\x1b[38;2;" ++ toString 5 ++ ";" ++
      toString 6 ++ ";" ++ toString 7 ++ "m")]) ∧
    (idxCanvas.set_bg sampleExt ⟨5, 6, 7, 255⟩ =
      [Out.esc ("\x1b[48;5;" ++ toString (sampleExt.rgb256 5 6 7) ++ "m")]) :=
  ⟨((set_fg_set_bg_encoding sampleExt tcCanvas ⟨3, 0, 0, 0⟩).1 rfl (by decide)).1,
   ((set_fg_set_bg_encoding sampleExt tcCanvas ⟨9, 0, 0, 0⟩).2.1 rfl (by decide)).2,
   ((set_fg_set_bg_encoding sampleExt tcCanvas ⟨5, 6, 7, 1⟩).2.2.1 rfl).1,
   ((set_fg_set_bg_encoding sampleExt tcCanvas ⟨5, 6, 7, 255⟩).2.2.2.1 (by decide) (by decide) rfl).1,
   ((set_fg_set_bg_encoding sampleExt idxCanvas ⟨5, 6, 7, 255⟩).2.2.2.2 (by decide) (by decide) rfl).2⟩

end Hgrep

namespace Hgrep

/-- C5 (counterexample): `find_syntax` does return an error when the
engine's file resolver fails on a path whose extension is not in the
override table — the source propagates the `Result` of
`find_syntax_for_file` with `?`. -/
theorem find_syntax_error_cex :
    find_syntax (fun e => e) (fun _ => (none : Option String))
      (fun _ => Except.error "io error") "Plain Text" (some "xyz") =
      Except.error "io error" := rfl

/-- C5 (amended): syntax resolution consults the extension-override table
first, then the engine's extension resolver, then falls back to plain
text; it never fails **provided the engine resolver call succeeds**, and
propagates the resolver's error otherwise. -/
theorem find_syntax_resolution {π α ε : Type} (extension : π → Option String)
    (fbn : String → Option α) (fff : π → Except ε (Option α)) (plain : α) (path : π) :
    (∀ s, (overrideName (extension path)).bind fbn = some s →
      find_syntax extension fbn fff plain path = Except.ok s) ∧
    ((overrideName (extension path)).bind fbn = none → ∀ o, fff path = Except.ok o →
      find_syntax extension fbn fff plain path = Except.ok (o.getD plain)) ∧
    ((overrideName (extension path)).bind fbn = none → ∀ e, fff path = Except.error e →
      find_syntax extension fbn fff plain path = Except.error e) := by
  refine ⟨fun s hs => ?_, fun hn o ho => ?_, fun hn e he => ?_⟩
  · simp [ find_syntax, hs]
  · simp [ find_syntax, hn, ho]
  · simp [ find_syntax, hn, he]

/-- Witness for C5 (amended): the three branches at concrete inputs. -/
theorem find_syntax_resolution_witness :
    ( find_syntax (fun e => e) (fun n => some ("syn:" ++ n))
      (fun _ => (Except.ok none : Except String (Option String))) "Plain Text" (some "fs") =
      Except.ok "syn:F#") ∧
    ( find_syntax (fun e => e) (fun _ => (none : Option String))
      (fun _ => (Except.ok none : Except String (Option String))) "Plain Text" (some "xyz") =
      Except.ok "Plain Text") ∧
    ( find_syntax (fun e => e) (fun _ => (none : Option String))
      (fun _ => (Except.error "io" : Except String (Option String))) "Plain Text" (some "xyz") =
      Except.error "io") :=
  ⟨( find_syntax_resolution (fun e => e) (fun n => some ("syn:" ++ n))
      (fun _ => Except.ok none) "Plain Text" (some "fs")).1 "syn:F#" rfl,
   ( find_syntax_resolution (fun e => e) (fun _ => none)
      (fun _ => Except.ok none) "Plain Text" (some "xyz")).2.1 rfl none rfl,
   ( find_syntax_resolution (fun e => e) (fun _ => none)
      (fun _ => Except.error "io") "Plain Text" (some "xyz")).2.2 rfl "io" rfl⟩

/-- C8: `print` on a file with no chunks or no matched line numbers
returns success immediately and produces no sink events at all (in
particular zero bytes are written). -/
theorem print_empty_noop (ext : Ext) (opts : PrinterOptions) (theme : Theme)
    (hl : Nat → List (Style × List Char)) (fuel : Nat) (sres : Except String Unit)
    (file : File) (h : file.chunks = [] ∨ file.line_numbers = []) :
    printTrace ext opts theme hl fuel sres file = some (Except.ok []) := by
  simp [printTrace, h]

/-- Witness for C8 at the concrete empty file. -/
theorem print_empty_noop_witness :
    printTrace sampleExt sampleOpts sampleTheme sampleHl 5 (Except.ok ()) emptyFile =
      some (Except.ok []) :=
  print_empty_noop sampleExt sampleOpts sampleTheme sampleHl 5 (Except.ok ()) emptyFile
    (Or.inl rfl)

/-- C4 (counterexample): `print` on an empty file returns success with an
empty sink trace, so it acquires zero locks, not exactly one per call. -/
theorem print_lock_cex :
    printTrace sampleExt sampleOpts sampleTheme sampleHl 5 (Except.ok ()) emptyFile =
      some (Except.ok []) ∧ countLocks [] = 0 :=
  ⟨rfl, rfl⟩

/-- C4 (amended): every successful `print` call acquires **at most** one
lock: none when the input is empty, and exactly one — held only around the
single `write_all` of the fully pre-rendered buffer followed by `flush` —
when output is produced; no sink event falls outside that window. -/
theorem print_lock_discipline (ext : Ext) (opts : PrinterOptions) (theme : Theme)
    (hl : Nat → List (Style × List Char)) (fuel : Nat) (sres : Except String Unit)
    (file : File) (evs : List SinkEvent)
    (h : printTrace ext opts theme hl fuel sres file = some (Except.ok evs)) :
    (evs = [] ∧ (file.chunks = [] ∨ file.line_numbers = [])) ∨
    (∃ buf, renderFile ext opts theme hl fuel file = some buf ∧
      evs = [SinkEvent.lock, SinkEvent.write buf, SinkEvent.flush, SinkEvent.unlock] ∧
      countLocks evs = 1) := by
  by_cases he : file.chunks = [] ∨ file.line_numbers = []
  · left
    simp [printTrace, he] at h
    exact ⟨h, he⟩
  · right
    simp only [printTrace, if_neg he] at h
    cases sres with
    | error e => simp at h
    | ok u =>
      cases hr : renderFile ext opts theme hl fuel file with
      | none => rw [hr] at h; simp at h
      | some buf =>
        rw [hr] at h
        simp at h
        exact ⟨buf, rfl, h.symm, by simp [← h, countLocks]⟩

/-- Witness for C4 (amended) at a concrete non-empty file. -/
theorem print_lock_discipline_witness :
    (([SinkEvent.lock,
        SinkEvent.write ((renderFile sampleExt sampleOpts sampleTheme sampleHl 5
          oneChunkFile).getD []),
        SinkEvent.flush, SinkEvent.unlock] : List SinkEvent) = [] ∧
      (oneChunkFile.chunks = [] ∨ oneChunkFile.line_numbers = [])) ∨
    (∃ buf, renderFile sampleExt sampleOpts sampleTheme sampleHl 5 oneChunkFile = some buf ∧
      ([SinkEvent.lock,
        SinkEvent.write ((renderFile sampleExt sampleOpts sampleTheme sampleHl 5
          oneChunkFile).getD []),
        SinkEvent.flush, SinkEvent.unlock] : List SinkEvent) =
        [SinkEvent.lock, SinkEvent.write buf, SinkEvent.flush, SinkEvent.unlock] ∧
      countLocks [SinkEvent.lock,
        SinkEvent.write ((renderFile sampleExt sampleOpts sampleTheme sampleHl 5
          oneChunkFile).getD []),
        SinkEvent.flush, SinkEvent.unlock] = 1) :=
  print_lock_discipline sampleExt sampleOpts sampleTheme sampleHl 5 (Except.ok ())
    oneChunkFile _ (by rfl)

end Hgrep

namespace Hgrep

/-- C10: `Drawer::draw_line_number(lnum, matched)` with `matched = true`
reads `theme.settings.foreground.unwrap()`: when the theme defines a
default foreground the gutter is drawn with it (and the grid bar restores
the gutter color), when it does not the call panics (`none`); with
`matched = false` the foreground field is never consulted and the gutter
color is used. -/
theorem draw_line_number_foreground (ext : Ext) (d : Drawer) (lnum : Nat) :
    (∀ c, d.theme.settings.foreground = some c →
      d.draw_line_number ext lnum true = some
        (d.canvas.set_fg ext c ++ d.canvas.set_default_bg ext ++
          Canvas.draw_spaces (d.lnum_width - num_digits lnum) ++
          [Out.txt (' ' :: (toString lnum).data)] ++
          (if d.grid then d.canvas.set_fg ext d.gutter_color ++ [Out.txt [' ', '│']]
            else []) ++
          d.canvas.set_default_bg ext ++ [Out.txt [' ']])) ∧
    (d.theme.settings.foreground = none → d.draw_line_number ext lnum true = none) ∧
    (d.draw_line_number ext lnum false = some
      (d.canvas.set_fg ext d.gutter_color ++ d.canvas.set_default_bg ext ++
        Canvas.draw_spaces (d.lnum_width - num_digits lnum) ++
        [Out.txt (' ' :: (toString lnum).data)] ++
        (if d.grid then [Out.txt [' ', '│']] else []) ++
        d.canvas.set_default_bg ext ++ [Out.txt [' ']])) := by
  refine ⟨fun c hc => ?_, fun hn => ?_, ?_⟩
  · simp [Drawer.draw_line_number, hc]
  · simp [Drawer.draw_line_number, hn]
  · simp [Drawer.draw_line_number]

/-- Witness for C10: a theme without default foreground panics on a
matched gutter; one with a foreground succeeds. -/
theorem draw_line_number_foreground_witness :
    Drawer.draw_line_number sampleExt (Drawer.new sampleOpts noFgTheme [(1, 3)]) 2 true =
      none ∧
    (Drawer.draw_line_number sampleExt (Drawer.new sampleOpts sampleTheme [(1, 3)]) 2
      true).isSome = true := by
  constructor
  · exact (draw_line_number_foreground sampleExt
      (Drawer.new sampleOpts noFgTheme [(1, 3)]) 2).2.1 (by decide)
  · have h := (draw_line_number_foreground sampleExt
      (Drawer.new sampleOpts sampleTheme [(1, 3)]) 2).1 ⟨1, 2, 3, 255⟩ (by decide)
    rw [h]
    rfl

end Hgrep

namespace Hgrep

/-- C6: for a non-empty chunk list whose last end line number is positive,
`Drawer::new` sets `lnum_width` to the decimal digit count of the last
chunk's end, raised to a minimum of 3 when there is more than one chunk,
and `gutter_width` is `lnum_width + 4` with grid and `lnum_width + 2`
without.  (`num_digits` idealizes the source's `f64::log10` as the exact
floor logarithm.) -/
theorem drawer_layout_widths (opts : PrinterOptions) (theme : Theme)
    (chunks : List (Nat × Nat)) (lastEnd : Nat) (_hne : chunks ≠ [])
    (hlast : ((chunks.getLast?).map Prod.snd).getD 0 = lastEnd) (hpos : 1 ≤ lastEnd) :
    ((Drawer.new opts theme chunks).lnum_width =
      if 1 < chunks.length then max (Nat.digits 10 lastEnd).length 3
      else (Nat.digits 10 lastEnd).length) ∧
    num_digits lastEnd = (Nat.digits 10 lastEnd).length ∧
    (Drawer.new opts theme chunks).gutter_width =
      (Drawer.new opts theme chunks).lnum_width + (if opts.grid then 4 else 2) := by
  have hd : num_digits lastEnd = (Nat.digits 10 lastEnd).length := by
    rw [num_digits_eq_log, Nat.digits_len 10 lastEnd (by norm_num) (by omega)]
  refine ⟨?_, hd, ?_⟩
  · simp only [Drawer.new, hlast, ← hd]
  · simp [Drawer.gutter_width, Drawer.new]
    by_cases hg : opts.grid <;> simp [hg]

/-- Witness for C6 with chunks `(1,6)` and `(10,15)`. -/
theorem drawer_layout_widths_witness :
    ((Drawer.new sampleOpts sampleTheme [(1, 6), (10, 15)]).lnum_width =
      if 1 < ([(1, 6), (10, 15)] : List (Nat × Nat)).length then
        max (Nat.digits 10 15).length 3
      else (Nat.digits 10 15).length) ∧
    num_digits 15 = (Nat.digits 10 15).length ∧
    (Drawer.new sampleOpts sampleTheme [(1, 6), (10, 15)]).gutter_width =
      (Drawer.new sampleOpts sampleTheme [(1, 6), (10, 15)]).lnum_width +
        (if sampleOpts.grid then 4 else 2) :=
  drawer_layout_widths sampleOpts sampleTheme [(1, 6), (10, 15)] 15 (by decide) rfl
    (by decide)

end Hgrep

namespace Hgrep

theorem linesInclusiveGo_join : ∀ (rest : List Nat) (lnum : Nat) (acc : List Nat),
    List.flatten ((linesInclusiveGo lnum acc rest).map Prod.fst) = acc ++ rest := by
  intro rest
  induction rest with
  | nil =>
    intro lnum acc
    by_cases h : acc = [] <;> simp [linesInclusiveGo, h]
  | cons b bs ih =>
    intro lnum acc
    by_cases hb : b = 10
    · simp [linesInclusiveGo, hb, ih]
    · simp [linesInclusiveGo, hb, ih]

theorem linesInclusiveGo_lnums : ∀ (rest : List Nat) (lnum : Nat) (acc : List Nat),
    (linesInclusiveGo lnum acc rest).map Prod.snd =
      List.range' lnum (linesInclusiveGo lnum acc rest).length := by
  intro rest
  induction rest with
  | nil =>
    intro lnum acc
    by_cases h : acc = [] <;> simp [linesInclusiveGo, h, List.range'_succ]
  | cons b bs ih =>
    intro lnum acc
    by_cases hb : b = 10
    · simp [linesInclusiveGo, hb, ih, List.range'_succ]
    · simp [linesInclusiveGo, hb, ih]

theorem linesInclusiveGo_newlines : ∀ (rest : List Nat) (lnum : Nat) (acc : List Nat),
    ∀ p ∈ (linesInclusiveGo lnum acc rest).dropLast, p.1.getLast? = some 10 := by
  intro rest
  induction rest with
  | nil =>
    intro lnum acc p hp
    by_cases h : acc = [] <;> simp [linesInclusiveGo, h] at hp
  | cons b bs ih =>
    intro lnum acc p hp
    by_cases hb : b = 10
    · simp only [linesInclusiveGo, if_pos hb] at hp
      cases ht : linesInclusiveGo (lnum + 1) [] bs with
      | nil => rw [ht] at hp; simp at hp
      | cons y ys =>
        rw [ht] at hp
        simp only [List.dropLast_cons₂, List.mem_cons] at hp
        cases hp with
        | inl h => subst h; simp
        | inr h =>
          have := ih (lnum + 1) [] p
          rw [ht] at this
          exact this h
    · simp only [linesInclusiveGo, if_neg hb] at hp
      exact ih lnum (acc ++ [b]) p hp

/-- C7: the line splitter yields newline-terminated slices (except
possibly the last), line numbers `1, 2, 3, ...`, and the concatenation of
all slices is the original buffer (so the per-line byte counts sum to its
length); the empty buffer yields nothing. -/
theorem linesInclusive_spec (buf : List Nat) :
    List.flatten ((linesInclusive buf).map Prod.fst) = buf ∧
    ((linesInclusive buf).map (fun p => p.1.length)).sum = buf.length ∧
    (linesInclusive buf).map Prod.snd = List.range' 1 (linesInclusive buf).length ∧
    (∀ p ∈ (linesInclusive buf).dropLast, p.1.getLast? = some 10) ∧
    linesInclusive ([] : List Nat) = [] := by
  have h1 := linesInclusiveGo_join buf 1 []
  simp only [List.nil_append] at h1
  refine ⟨h1, ?_, linesInclusiveGo_lnums buf 1 [], linesInclusiveGo_newlines buf 1 [], rfl⟩
  have h2 := congrArg List.length h1
  rw [List.length_flatten] at h2
  simpa [Function.comp] using h2

/-- Witness for C7 on a concrete buffer, including the trailing-newline
conjunct at a concrete slice. -/
theorem linesInclusive_spec_witness :
    List.flatten ((linesInclusive [97, 10, 98, 10, 99]).map Prod.fst) = [97, 10, 98, 10, 99] ∧
    (([97, 10], 1) : List Nat × Nat).1.getLast? = some 10 :=
  ⟨(linesInclusive_spec [97, 10, 98, 10, 99]).1,
   (linesInclusive_spec [97, 10, 98, 10, 99]).2.2.2.1 ([97, 10], 1) (by decide)⟩

end Hgrep

namespace Hgrep

/-- Column contribution of one character in `Canvas::draw_text`: a tab
counts `tab_width` columns when `tab_width > 0`; any other character (and
a tab in hard-tab mode) counts its `cw` width. -/
def contrib (ext : Ext) (tw : Nat) (c : Char) : Nat :=
  if c = '\t' ∧ 0 < tw then tw else ext.cw c

/-- Total column width of a text under `contrib`. -/
def lineW (ext : Ext) (tw : Nat) (text : List Char) : Nat :=
  (text.map (contrib ext tw)).sum

/-- The output token `Canvas::draw_text` emits for one character that
fits: a tab becomes `tab_width` spaces, anything else itself. -/
def tokenOf (tw : Nat) (c : Char) : Out :=
  if c = '\t' ∧ 0 < tw then Out.txt (List.replicate tw ' ') else Out.txt [c]

/-- Output of `Canvas::draw_text` when the whole text fits. -/
def renderAll (tw : Nat) (text : List Char) : List Out :=
  text.map (tokenOf tw)

theorem lineW_nil (ext : Ext) (tw : Nat) : lineW ext tw [] = 0 := rfl

theorem lineW_cons (ext : Ext) (tw : Nat) (c : Char) (cs : List Char) :
    lineW ext tw (c :: cs) = contrib ext tw c + lineW ext tw cs := by
  simp [lineW]

theorem draw_textAux_fits (ext : Ext) (cv : Canvas) (limit : Nat) :
    ∀ (text : List Char) (width : Nat),
    width + lineW ext cv.tab_width text ≤ limit →
    Canvas.draw_textAux ext cv limit text width =
      (renderAll cv.tab_width text, LineDrawState.cont (width + lineW ext cv.tab_width text)) := by
  intro text
  induction text with
  | nil => intro width h; simp [Canvas.draw_textAux, lineW, renderAll]
  | cons c cs ih =>
    intro width h
    rw [lineW_cons] at h
    by_cases hc : c = '\t' ∧ 0 < cv.tab_width
    · have hcontrib : contrib ext cv.tab_width c = cv.tab_width := by simp [contrib, hc]
      rw [hcontrib] at h
      have hno : ¬limit < width + cv.tab_width := by omega
      have hrec := ih (width + cv.tab_width) (by omega)
      simp only [Canvas.draw_textAux, if_pos hc, if_neg hno, hrec, Prod.mk.injEq]
      constructor
      · simp [renderAll, tokenOf, if_pos hc, Canvas.draw_spaces]
      · rw [lineW_cons, hcontrib]
        exact congrArg LineDrawState.cont (by omega)
    · have hcontrib : contrib ext cv.tab_width c = ext.cw c := by simp [contrib, hc]
      rw [hcontrib] at h
      have hno : ¬limit < width + ext.cw c := by omega
      have hrec := ih (width + ext.cw c) (by omega)
      simp only [Canvas.draw_textAux, if_neg hc, if_neg hno, hrec, Prod.mk.injEq]
      constructor
      · simp [renderAll, tokenOf, if_neg hc]
      · rw [lineW_cons, hcontrib]
        exact congrArg LineDrawState.cont (by omega)

end Hgrep

namespace Hgrep

theorem draw_textAux_cont_inv (ext : Ext) (cv : Canvas) (limit : Nat) :
    ∀ (text : List Char) (width : Nat) (os : List Out) (w : Nat),
    width ≤ limit →
    Canvas.draw_textAux ext cv limit text width = (os, LineDrawState.cont w) →
    w = width + lineW ext cv.tab_width text ∧ w ≤ limit ∧
      os = renderAll cv.tab_width text := by
  intro text
  induction text with
  | nil =>
    intro width os w hw h
    simp [Canvas.draw_textAux] at h
    refine ⟨by simp [lineW, ← h.2], by omega, by simp [renderAll, ← h.1]⟩
  | cons c cs ih =>
    intro width os w hw h
    by_cases hc : c = '\t' ∧ 0 < cv.tab_width
    · by_cases hlt : limit < width + cv.tab_width
      · simp [Canvas.draw_textAux, if_pos hc, if_pos hlt] at h
      · simp only [Canvas.draw_textAux, if_pos hc, if_neg hlt] at h
        rcases hr : Canvas.draw_textAux ext cv limit cs (width + cv.tab_width) with ⟨os2, st2⟩
        rw [hr] at h
        simp only [Prod.mk.injEq] at h
        cases st2 with
        | brk r => exact absurd h.2 (by simp)
        | cont w2 =>
          have h2 := h.2
          simp at h2
          obtain ⟨hwsum, hwle, hos2⟩ := ih (width + cv.tab_width) os2 w2 (by omega) hr
          subst h2
          refine ⟨?_, hwle, ?_⟩
          · rw [lineW_cons]
            have : contrib ext cv.tab_width c = cv.tab_width := by simp [contrib, hc]
            omega
          · rw [← h.1, hos2]
            simp [renderAll, tokenOf, if_pos hc, Canvas.draw_spaces]
    · by_cases hlt : limit < width + ext.cw c
      · simp [Canvas.draw_textAux, if_pos hc, if_neg hc, if_pos hlt] at h
      · simp only [Canvas.draw_textAux, if_neg hc, if_neg hlt] at h
        rcases hr : Canvas.draw_textAux ext cv limit cs (width + ext.cw c) with ⟨os2, st2⟩
        rw [hr] at h
        simp only [Prod.mk.injEq] at h
        cases st2 with
        | brk r => exact absurd h.2 (by simp)
        | cont w2 =>
          have h2 := h.2
          simp at h2
          obtain ⟨hwsum, hwle, hos2⟩ := ih (width + ext.cw c) os2 w2 (by omega) hr
          subst h2
          refine ⟨?_, hwle, ?_⟩
          · rw [lineW_cons]
            have : contrib ext cv.tab_width c = ext.cw c := by simp [contrib, hc]
            omega
          · rw [← h.1, hos2]
            simp [renderAll, tokenOf, if_neg hc]

end Hgrep

namespace Hgrep

theorem draw_textAux_brk_inv (ext : Ext) (cv : Canvas) (limit : Nat) :
    ∀ (text : List Char) (width : Nat) (os : List Out) (rest : List Char),
    width ≤ limit →
    Canvas.draw_textAux ext cv limit text width = (os, LineDrawState.brk rest) →
    ∃ pre c suf, text = pre ++ c :: suf ∧
      width + lineW ext cv.tab_width pre ≤ limit ∧
      limit < width + lineW ext cv.tab_width pre + contrib ext cv.tab_width c ∧
      ((c = '\t' ∧ 0 < cv.tab_width) →
        rest = suf ∧
        os = renderAll cv.tab_width pre ++
          Canvas.draw_spaces (limit - (width + lineW ext cv.tab_width pre))) ∧
      (¬(c = '\t' ∧ 0 < cv.tab_width) →
        rest = c :: suf ∧ os = renderAll cv.tab_width pre) := by
  intro text
  induction text with
  | nil =>
    intro width os rest hw h
    simp [Canvas.draw_textAux] at h
  | cons c cs ih =>
    intro width os rest hw h
    by_cases hc : c = '\t' ∧ 0 < cv.tab_width
    · have hcontrib : contrib ext cv.tab_width c = cv.tab_width := by simp [contrib, hc]
      by_cases hlt : limit < width + cv.tab_width
      · simp only [Canvas.draw_textAux, if_pos hc, if_pos hlt, Prod.mk.injEq] at h
        refine ⟨[], c, cs, rfl, ?_, ?_, ?_, ?_⟩
        · simp [lineW_nil]; omega
        · rw [lineW_nil, hcontrib]; omega
        · intro _
          have h2 := h.2
          simp at h2
          exact ⟨h2.symm, by rw [← h.1]; simp [renderAll, lineW_nil]⟩
        · intro hn; exact absurd hc hn
      · simp only [Canvas.draw_textAux, if_pos hc, if_neg hlt] at h
        rcases hr : Canvas.draw_textAux ext cv limit cs (width + cv.tab_width) with ⟨os2, st2⟩
        rw [hr] at h
        simp only [Prod.mk.injEq] at h
        cases st2 with
        | cont w2 => exact absurd h.2 (by simp)
        | brk r2 =>
          have h2 := h.2
          simp at h2
          subst h2
          obtain ⟨pre, c2, suf, heq, hle, hbr, htab, hnotab⟩ :=
            ih (width + cv.tab_width) os2 r2 (by omega) hr
          refine ⟨c :: pre, c2, suf, by simp [heq], ?_, ?_, ?_, ?_⟩
          · rw [lineW_cons, hcontrib]; omega
          · rw [lineW_cons, hcontrib]; omega
          · intro ht
            obtain ⟨hrest, hos2⟩ := htab ht
            refine ⟨hrest, ?_⟩
            rw [← h.1, hos2, lineW_cons, hcontrib, ← Nat.add_assoc]
            simp [renderAll, tokenOf, if_pos hc, Canvas.draw_spaces]
          · intro hn
            obtain ⟨hrest, hos2⟩ := hnotab hn
            refine ⟨hrest, ?_⟩
            rw [← h.1, hos2]
            simp [renderAll, tokenOf, if_pos hc, Canvas.draw_spaces]
    · have hcontrib : contrib ext cv.tab_width c = ext.cw c := by simp [contrib, hc]
      by_cases hlt : limit < width + ext.cw c
      · simp only [Canvas.draw_textAux, if_neg hc, if_pos hlt, Prod.mk.injEq] at h
        refine ⟨[], c, cs, rfl, ?_, ?_, ?_, ?_⟩
        · simp [lineW_nil]; omega
        · rw [lineW_nil, hcontrib]; omega
        · intro ht; exact absurd ht hc
        · intro _
          have h2 := h.2
          simp at h2
          exact ⟨h2.symm, by rw [← h.1]; simp [renderAll]⟩
      · simp only [Canvas.draw_textAux, if_neg hc, if_neg hlt] at h
        rcases hr : Canvas.draw_textAux ext cv limit cs (width + ext.cw c) with ⟨os2, st2⟩
        rw [hr] at h
        simp only [Prod.mk.injEq] at h
        cases st2 with
        | cont w2 => exact absurd h.2 (by simp)
        | brk r2 =>
          have h2 := h.2
          simp at h2
          subst h2
          obtain ⟨pre, c2, suf, heq, hle, hbr, htab, hnotab⟩ :=
            ih (width + ext.cw c) os2 r2 (by omega) hr
          refine ⟨c :: pre, c2, suf, by simp [heq], ?_, ?_, ?_, ?_⟩
          · rw [lineW_cons, hcontrib]; omega
          · rw [lineW_cons, hcontrib]; omega
          · intro ht
            obtain ⟨hrest, hos2⟩ := htab ht
            refine ⟨hrest, ?_⟩
            rw [← h.1, hos2, lineW_cons, hcontrib, ← Nat.add_assoc]
            simp [renderAll, tokenOf, if_neg hc, Canvas.draw_spaces]
          · intro hn
            obtain ⟨hrest, hos2⟩ := hnotab hn
            refine ⟨hrest, ?_⟩
            rw [← h.1, hos2]
            simp [renderAll, tokenOf, if_neg hc]

end Hgrep

namespace Hgrep

/-- C3: `Canvas::draw_text(text, limit)` accumulates per-character widths
(tabs count `tab_width` columns and are emitted as that many spaces when
`tab_width > 0`, and are emitted literally with width 0 when
`tab_width = 0`; other characters count their East-Asian-aware width and
are emitted even when zero-width).  When the total width fits in `limit`
it emits every character and returns `Continue` with the total width;
otherwise it stops at the first character that would push the width past
`limit`: a breaking tab pads the remaining columns with spaces and is
skipped (`rest` is the suffix after it), any other breaking character is
not emitted and `rest` starts with it. -/
theorem draw_text_spec (ext : Ext) (cv : Canvas) (text : List Char) (limit : Nat) :
    (lineW ext cv.tab_width text ≤ limit →
      cv.draw_text ext text limit =
        (renderAll cv.tab_width text,
          LineDrawState.cont (lineW ext cv.tab_width text))) ∧
    (limit < lineW ext cv.tab_width text →
      ∃ pre c suf, text = pre ++ c :: suf ∧
        lineW ext cv.tab_width pre ≤ limit ∧
        limit < lineW ext cv.tab_width pre + contrib ext cv.tab_width c ∧
        ((c = '\t' ∧ 0 < cv.tab_width) →
          cv.draw_text ext text limit =
            (renderAll cv.tab_width pre ++
              Canvas.draw_spaces (limit - lineW ext cv.tab_width pre),
              LineDrawState.brk suf)) ∧
        (¬(c = '\t' ∧ 0 < cv.tab_width) →
          cv.draw_text ext text limit =
            (renderAll cv.tab_width pre, LineDrawState.brk (c :: suf)))) := by
  constructor
  · intro hfit
    have h := draw_textAux_fits ext cv limit text 0 (by omega)
    simpa [Canvas.draw_text] using h
  · intro hover
    rcases hr0 : cv.draw_text ext text limit with ⟨os, st⟩
    have hr : Canvas.draw_textAux ext cv limit text 0 = (os, st) := hr0
    cases st with
    | cont w =>
      obtain ⟨hw, hwle, _⟩ := draw_textAux_cont_inv ext cv limit text 0 os w (Nat.zero_le _) hr
      omega
    | brk rest =>
      obtain ⟨pre, c, suf, heq, hle, hbr, htab, hnotab⟩ :=
        draw_textAux_brk_inv ext cv limit text 0 os rest (Nat.zero_le _) hr
      refine ⟨pre, c, suf, heq, by omega, by omega, ?_, ?_⟩
      · intro ht
        obtain ⟨h1, h2⟩ := htab ht
        rw [h1, h2]
        simp
      · intro hn
        obtain ⟨h1, h2⟩ := hnotab hn
        rw [h1, h2]

/-- Witness for C3: a fitting line, and an overflowing line broken at its
first character. -/
theorem draw_text_spec_witness :
    (tcCanvas.draw_text sampleExt ['a', 'b'] 5 =
      (renderAll tcCanvas.tab_width ['a', 'b'],
        LineDrawState.cont (lineW sampleExt tcCanvas.tab_width ['a', 'b']))) ∧
    (∃ pre c suf, (['a', 'b', 'c'] : List Char) = pre ++ c :: suf ∧
      lineW sampleExt tcCanvas.tab_width pre ≤ 1 ∧
      1 < lineW sampleExt tcCanvas.tab_width pre + contrib sampleExt tcCanvas.tab_width c ∧
      ((c = '\t' ∧ 0 < tcCanvas.tab_width) →
        tcCanvas.draw_text sampleExt ['a', 'b', 'c'] 1 =
          (renderAll tcCanvas.tab_width pre ++
            Canvas.draw_spaces (1 - lineW sampleExt tcCanvas.tab_width pre),
            LineDrawState.brk suf)) ∧
      (¬(c = '\t' ∧ 0 < tcCanvas.tab_width) →
        tcCanvas.draw_text sampleExt ['a', 'b', 'c'] 1 =
          (renderAll tcCanvas.tab_width pre, LineDrawState.brk (c :: suf)))) :=
  ⟨(draw_text_spec sampleExt tcCanvas ['a', 'b'] 5).1 (by decide),
   (draw_text_spec sampleExt tcCanvas ['a', 'b', 'c'] 1).2 (by decide)⟩

end Hgrep

namespace Hgrep

/-- All characters of a parts list. -/
def charsOf (parts : List (Style × List Char)) : List Char :=
  (parts.map Prod.snd).flatten

/-- Total number of characters in a parts list (the measure of the wrap
loop). -/
def partsChars (parts : List (Style × List Char)) : Nat :=
  (parts.map (fun p => p.2.length)).sum

theorem partsChars_append (a b : List (Style × List Char)) :
    partsChars (a ++ b) = partsChars a + partsChars b := by
  simp [partsChars]

theorem partsChars_take_drop (parts : List (Style × List Char)) (k : Nat) :
    partsChars parts = partsChars (parts.take k) + partsChars (parts.drop k) := by
  rw [← partsChars_append, List.take_append_drop]

theorem draw_textsAux_inr_inv (ext : Ext) (cv : Canvas) (matched : Bool) (max_width : Nat) :
    ∀ (parts : List (Style × List Char)) (idx0 width0 : Nat) (os : List Out)
      (rest : List Char) (idx : Nat),
    Canvas.draw_textsAux ext cv matched max_width parts idx0 width0 =
      (os, Sum.inr (rest, idx)) →
    ∃ k st text tl width2 os2,
      parts.drop k = (st, text) :: tl ∧
      idx = idx0 + k ∧
      width0 ≤ width2 ∧
      (width0 < width2 → 1 ≤ partsChars (parts.take k)) ∧
      cv.draw_text ext text (max_width - width2) = (os2, LineDrawState.brk rest) := by
  intro parts
  induction parts with
  | nil =>
    intro idx0 width0 os rest idx h
    simp [Canvas.draw_textsAux] at h
  | cons p ps ih =>
    obtain ⟨style, text⟩ := p
    intro idx0 width0 os rest idx h
    rcases hd : cv.draw_text ext text (max_width - width0) with ⟨osd, std⟩
    simp only [Canvas.draw_textsAux, hd] at h
    cases std with
    | brk rst =>
      simp only [Prod.mk.injEq, Sum.inr.injEq] at h
      obtain ⟨hos, hr1, hr2⟩ := h
      refine ⟨0, style, text, ps, width0, osd, by simp, by omega, le_rfl,
        by omega, ?_⟩
      rw [hd, hr1]
    | cont w =>
      simp only [Prod.mk.injEq] at h
      rcases hrec : Canvas.draw_textsAux ext cv matched max_width ps (idx0 + 1)
          (width0 + w) with ⟨osr, str⟩
      rw [hrec] at h
      obtain ⟨hos, hstr0⟩ := h
      have hstr : str = Sum.inr (rest, idx) := hstr0
      cases str with
      | inl wfin => simp at hstr
      | inr pr =>
        obtain ⟨rst, i⟩ := pr
        simp only [Sum.inr.injEq, Prod.mk.injEq] at hstr
        obtain ⟨hr1, hr2⟩ := hstr
        subst hr1; subst hr2
        obtain ⟨k, st2, text2, tl, width2, os2, hdrop, hidx, hw2, hch, hbrk⟩ :=
          ih (idx0 + 1) (width0 + w) osr rst i hrec
        have hwval : w = lineW ext cv.tab_width text := by
          have := draw_textAux_cont_inv ext cv (max_width - width0) text 0 osd w
            (Nat.zero_le _) hd
          omega
        refine ⟨k + 1, st2, text2, tl, width2, os2, by simpa using hdrop,
          by omega, by omega, ?_, hbrk⟩
        intro hlt
        have htk : partsChars (((style, text) :: ps).take (k + 1)) =
            text.length + partsChars (ps.take k) := by
          simp [partsChars]
        rw [htk]
        by_cases hw0 : w = 0
        · have := hch (by omega)
          omega
        · have htne : text ≠ [] := by
            intro he
            rw [he] at hwval
            simp [lineW] at hwval
            omega
          have : 1 ≤ text.length := List.length_pos.mpr htne
          omega

end Hgrep

namespace Hgrep

theorem draw_texts_wrap_inv (ext : Ext) (cv : Canvas) (matched : Bool) (max_width : Nat)
    (parts : List (Style × List Char)) (os : List Out) (rest : List Char) (idx : Nat)
    (h : cv.draw_texts ext parts matched max_width = (os, LineDrawn.wrap rest idx)) :
    ∃ st text tl width2 pre c suf,
      parts.drop idx = (st, text) :: tl ∧
      (0 < width2 → 1 ≤ partsChars (parts.take idx)) ∧
      text = pre ++ c :: suf ∧
      lineW ext cv.tab_width pre ≤ max_width - width2 ∧
      max_width - width2 < lineW ext cv.tab_width pre + contrib ext cv.tab_width c ∧
      ((c = '\t' ∧ 0 < cv.tab_width) → rest = suf) ∧
      (¬(c = '\t' ∧ 0 < cv.tab_width) → rest = c :: suf) := by
  rcases haux : Canvas.draw_textsAux ext cv matched max_width parts 0 0 with ⟨os0, r0⟩
  simp only [Canvas.draw_texts, haux] at h
  cases r0 with
  | inl wfin => simp at h
  | inr pr =>
    obtain ⟨rst, i⟩ := pr
    simp only [Prod.mk.injEq, LineDrawn.wrap.injEq] at h
    obtain ⟨-, hr1, hr2⟩ := h
    rw [← hr1, ← hr2]
    obtain ⟨k, st, text, tl, width2, os2, hdrop, hidx, -, hch, hd⟩ :=
      draw_textsAux_inr_inv ext cv matched max_width parts 0 0 os0 rst i haux
    have hk : k = i := by omega
    subst hk
    have hd2 : Canvas.draw_textAux ext cv (max_width - width2) text 0 =
        (os2, LineDrawState.brk rst) := hd
    obtain ⟨pre, c, suf, heq, hle, hbr, htab, hnotab⟩ :=
      draw_textAux_brk_inv ext cv (max_width - width2) text 0 os2 rst (Nat.zero_le _) hd2
    refine ⟨st, text, tl, width2, pre, c, suf, hdrop, by omega, heq, by omega, by omega,
      fun ht => (htab ht).1, fun hn => (hnotab hn).1⟩

theorem draw_texts_wrap_progress (ext : Ext) (cv : Canvas) (matched : Bool)
    (max_width : Nat) (parts : List (Style × List Char)) (os : List Out)
    (rest : List Char) (idx : Nat)
    (hw : ∀ c ∈ charsOf parts, contrib ext cv.tab_width c ≤ max_width)
    (h : cv.draw_texts ext parts matched max_width = (os, LineDrawn.wrap rest idx)) :
    partsChars (Drawer.wrapAdvance parts rest idx) < partsChars parts := by
  obtain ⟨st, text, tl, width2, pre, c, suf, hdrop, hch, heq, hle, hbr, htab, hnotab⟩ :=
    draw_texts_wrap_inv ext cv matched max_width parts os rest idx h
  have hdrop1 : parts.drop (idx + 1) = tl := by
    rw [← List.drop_drop 1 idx parts, hdrop]
    rfl
  have hsplit : partsChars parts = partsChars (parts.take idx) +
      (text.length + partsChars tl) := by
    rw [partsChars_take_drop parts idx, hdrop]
    simp [partsChars]
  have hlen : text.length = pre.length + 1 + suf.length := by
    rw [heq]; simp; omega
  have hcm : c ∈ charsOf parts := by
    have hmem : (st, text) ∈ parts := List.mem_of_mem_drop (by rw [hdrop]; simp)
    simp only [charsOf, List.mem_flatten, List.mem_map]
    exact ⟨text, ⟨(st, text), hmem, rfl⟩, by simp [heq]⟩
  by_cases hct : c = '\t' ∧ 0 < cv.tab_width
  · have hrs := htab hct
    subst hrs
    by_cases hre : rest = []
    · simp only [Drawer.wrapAdvance, if_pos hre, hdrop1]
      omega
    · simp only [Drawer.wrapAdvance, if_neg hre, hdrop]
      have : partsChars ((st, rest) :: tl) = rest.length + partsChars tl := by
        simp [partsChars]
      omega
  · have hrs := hnotab hct
    subst hrs
    have hre : (c :: suf : List Char) ≠ [] := by simp
    simp only [Drawer.wrapAdvance, if_neg hre, hdrop]
    have hnext : partsChars ((st, c :: suf) :: tl) = (suf.length + 1) + partsChars tl := by
      simp [partsChars]
    have hap : 0 < partsChars (parts.take idx) + pre.length := by
      by_contra hno
      have ha : partsChars (parts.take idx) = 0 := by omega
      have hp : pre = [] := List.length_eq_zero.mp (by omega)
      have hw2 : width2 = 0 := by
        by_contra hw2n
        have := hch (by omega)
        omega
      subst hp
      rw [hw2] at hbr
      simp [lineW] at hbr
      have := hw c hcm
      omega
    omega

theorem charsOf_drop_subset (parts : List (Style × List Char)) (n : Nat) :
    ∀ c ∈ charsOf (parts.drop n), c ∈ charsOf parts := by
  intro c hc
  simp only [charsOf, List.mem_flatten, List.mem_map] at hc ⊢
  obtain ⟨l, ⟨p, hp, hpl⟩, hcl⟩ := hc
  exact ⟨l, ⟨p, List.mem_of_mem_drop hp, hpl⟩, hcl⟩

theorem charsOf_wrapAdvance_subset (ext : Ext) (cv : Canvas) (matched : Bool)
    (max_width : Nat) (parts : List (Style × List Char)) (os : List Out)
    (rest : List Char) (idx : Nat)
    (h : cv.draw_texts ext parts matched max_width = (os, LineDrawn.wrap rest idx)) :
    ∀ c ∈ charsOf (Drawer.wrapAdvance parts rest idx), c ∈ charsOf parts := by
  obtain ⟨st, text, tl, width2, pre, c0, suf, hdrop, hch, heq, hle, hbr, htab, hnotab⟩ :=
    draw_texts_wrap_inv ext cv matched max_width parts os rest idx h
  intro c hc
  by_cases hre : rest = []
  · rw [Drawer.wrapAdvance, if_pos hre] at hc
    exact charsOf_drop_subset parts (idx + 1) c hc
  · rw [Drawer.wrapAdvance, if_neg hre, hdrop] at hc
    have hrt : ∀ x ∈ rest, x ∈ text := by
      intro x hx
      by_cases hct : c0 = '\t' ∧ 0 < cv.tab_width
      · rw [htab hct] at hx
        simp [heq, hx]
      · rw [hnotab hct] at hx
        simp only [heq, List.mem_append]
        right
        exact hx
    simp only [charsOf, List.map_cons, List.flatten_cons, List.mem_append] at hc
    cases hc with
    | inl hcr =>
      have hct : c ∈ text := hrt c hcr
      have hmem : (st, text) ∈ parts := List.mem_of_mem_drop (by rw [hdrop]; simp)
      simp only [charsOf, List.mem_flatten, List.mem_map]
      exact ⟨text, ⟨(st, text), hmem, rfl⟩, hct⟩
    | inr hctl =>
      have : c ∈ charsOf ((st, text) :: tl) := by
        simp only [charsOf, List.map_cons, List.flatten_cons, List.mem_append]
        right
        exact hctl
      rw [← hdrop] at this
      exact charsOf_drop_subset parts idx c this

end Hgrep

namespace Hgrep

theorem draw_lineLoop_isSome (ext : Ext) (d : Drawer) (matched : Bool) (body_width : Nat) :
    ∀ (fuel : Nat) (parts : List (Style × List Char)),
    (∀ c ∈ charsOf parts, contrib ext d.canvas.tab_width c ≤ body_width) →
    partsChars parts < fuel →
    (Drawer.draw_lineLoop ext d matched body_width fuel parts).isSome = true := by
  intro fuel
  induction fuel with
  | zero => intro parts hw hlt; omega
  | succ fuel ih =>
    intro parts hw hlt
    rcases hdt : d.canvas.draw_texts ext parts matched body_width with ⟨os, r⟩
    cases r with
    | done => simp [Drawer.draw_lineLoop, hdt]
    | wrap rest idx =>
      have hprog := draw_texts_wrap_progress ext d.canvas matched body_width parts os
        rest idx hw hdt
      have hsub := charsOf_wrapAdvance_subset ext d.canvas matched body_width parts os
        rest idx hdt
      have hrec := ih (Drawer.wrapAdvance parts rest idx)
        (fun c hc => hw c (hsub c hc)) (by omega)
      simp only [Drawer.draw_lineLoop, hdt]
      rcases hr2 : Drawer.draw_lineLoop ext d matched body_width fuel
          (Drawer.wrapAdvance parts rest idx) with _ | os2
      · rw [hr2] at hrec; simp at hrec
      · simp [hr2]

end Hgrep

namespace Hgrep

/-- C9: when every character of the tokenized line fits in the body width
(a tab counting `tab_width` columns), each `Wrap(rest, idx)` step of the
wrap loop in `Drawer::draw_line` strictly decreases the number of
remaining characters, so the loop terminates (any fuel above the character
count suffices); and for a line holding a single character wider than the
body width the loop makes no progress: the wrap step returns the parts
unchanged and the loop diverges for every fuel. -/
theorem wrap_loop_progress_termination :
    (∀ (ext : Ext) (d : Drawer) (matched : Bool) (body_width : Nat)
      (parts : List (Style × List Char)) (os : List Out) (rest : List Char) (idx : Nat),
      (∀ c ∈ charsOf parts, contrib ext d.canvas.tab_width c ≤ body_width) →
      d.canvas.draw_texts ext parts matched body_width = (os, LineDrawn.wrap rest idx) →
      partsChars (Drawer.wrapAdvance parts rest idx) < partsChars parts) ∧
    (∀ (ext : Ext) (d : Drawer) (matched : Bool) (body_width fuel : Nat)
      (parts : List (Style × List Char)),
      (∀ c ∈ charsOf parts, contrib ext d.canvas.tab_width c ≤ body_width) →
      partsChars parts < fuel →
      (Drawer.draw_lineLoop ext d matched body_width fuel parts).isSome = true) ∧
    ((Drawer.new sampleOpts sampleTheme [(1, 3)]).canvas.draw_texts wideExt
      [(sampleStyle, ['x'])] false 1 =
      ([Out.esc "\x1b[38;2;10;20;30m", Out.esc "\x1b[0m"], LineDrawn.wrap ['x'] 0)) ∧
    Drawer.wrapAdvance [(sampleStyle, ['x'])] ['x'] 0 = [(sampleStyle, ['x'])] ∧
    (∀ fuel, Drawer.draw_lineLoop wideExt (Drawer.new sampleOpts sampleTheme [(1, 3)])
      false 1 fuel [(sampleStyle, ['x'])] = none) := by
  refine ⟨?_, ?_, by decide, by decide, ?_⟩
  · intro ext d matched body_width parts os rest idx hw h
    exact draw_texts_wrap_progress ext d.canvas matched body_width parts os rest idx hw h
  · intro ext d matched body_width fuel parts hw hlt
    exact draw_lineLoop_isSome ext d matched body_width fuel parts hw hlt
  · intro fuel
    induction fuel with
    | zero => rfl
    | succ fuel ih =>
      have hstep : (Drawer.new sampleOpts sampleTheme [(1, 3)]).canvas.draw_texts wideExt
          [(sampleStyle, ['x'])] false 1 =
          ([Out.esc "\x1b[38;2;10;20;30m", Out.esc "\x1b[0m"], LineDrawn.wrap ['x'] 0) := by
        decide
      have hadv : Drawer.wrapAdvance [(sampleStyle, ['x'])] ['x'] 0 =
          [(sampleStyle, ['x'])] := by decide
      simp only [Drawer.draw_lineLoop, hstep, hadv, ih]

/-- Witness for C9: the progress part at a concrete breaking line, and the
termination part at a concrete fitting line. -/
theorem wrap_loop_progress_termination_witness :
    partsChars (Drawer.wrapAdvance [(sampleStyle, ['a', 'b', 'c'])] ['b', 'c'] 0) <
      partsChars [(sampleStyle, ['a', 'b', 'c'])] ∧
    (Drawer.draw_lineLoop sampleExt (Drawer.new sampleOpts sampleTheme [(1, 3)]) false 23 2
      [(sampleStyle, ['a'])]).isSome = true :=
  ⟨wrap_loop_progress_termination.1 sampleExt (Drawer.new sampleOpts sampleTheme [(1, 3)])
      false 1 [(sampleStyle, ['a', 'b', 'c'])]
      [Out.esc "\x1b[38;2;10;20;30m", Out.txt ['a'], Out.esc "\x1b[0m"] ['b', 'c'] 0
      (by decide) (by decide),
   wrap_loop_progress_termination.2.1 sampleExt (Drawer.new sampleOpts sampleTheme [(1, 3)])
      false 23 2 [(sampleStyle, ['a'])] (by decide) (by decide)⟩

end Hgrep

namespace Hgrep

/-- Whether a token list contains a newline token. -/
def hasNl (os : List Out) : Bool :=
  os.any fun o =>
    match o with
    | Out.nl => true
    | _ => false

theorem hasNl_append (a b : List Out) : hasNl (a ++ b) = (hasNl a || hasNl b) := by
  simp [hasNl]

theorem stAfter_append (st : Bool) (a b : List Out) :
    stAfter st (a ++ b) = stAfter (stAfter st a) b := by
  simp [stAfter, List.foldl_append]

theorem stAfter_reset (st : Bool) : stAfter st Canvas.reset_color = true := by
  simp [stAfter, Canvas.reset_color, stepSt]

theorem okFrom_append (st : Bool) (a b : List Out) :
    okFrom st (a ++ b) = (okFrom st a && okFrom (stAfter st a) b) := by
  induction a generalizing st with
  | nil => simp [okFrom, stAfter]
  | cons o rest ih =>
    cases o with
    | esc s => simp [okFrom, stAfter, stepSt, ih]
    | txt s => simp [okFrom, stAfter, stepSt, ih]
    | nl =>
      simp only [List.cons_append, okFrom, ih]
      cases hst : st <;> simp [stAfter, stepSt, ih]

theorem okFrom_of_no_nl (os : List Out) : ∀ st, hasNl os = false → okFrom st os = true := by
  induction os with
  | nil => intro st _; rfl
  | cons o rest ih =>
    intro st h
    cases o with
    | esc s =>
      rw [okFrom]
      exact ih _ (by simpa [hasNl] using h)
    | txt s =>
      rw [okFrom]
      exact ih _ (by simpa [hasNl] using h)
    | nl => simp [hasNl] at h

theorem hasNl_set_bg (ext : Ext) (cv : Canvas) (c : Color) :
    hasNl (cv.set_bg ext c) = false := by
  rw [Canvas.set_bg]
  split_ifs <;> rfl

theorem hasNl_set_fg (ext : Ext) (cv : Canvas) (c : Color) :
    hasNl (cv.set_fg ext c) = false := by
  rw [Canvas.set_fg]
  split_ifs <;> rfl

theorem hasNl_set_default_bg (ext : Ext) (cv : Canvas) :
    hasNl (cv.set_default_bg ext) = false := by
  rw [Canvas.set_default_bg]
  split_ifs with h
  · cases cv.theme.settings.background with
    | none => rfl
    | some bg => exact hasNl_set_bg ext cv bg
  · rfl

theorem hasNl_set_font_style (fs : FontStyle) : hasNl (Canvas.set_font_style fs) = false := by
  rw [Canvas.set_font_style, Canvas.set_bold, Canvas.set_underline]
  split_ifs <;> rfl

theorem hasNl_unset_font_style (fs : FontStyle) :
    hasNl (Canvas.unset_font_style fs) = false := by
  rw [Canvas.unset_font_style]
  split_ifs <;> rfl

theorem hasNl_draw_spaces (n : Nat) : hasNl (Canvas.draw_spaces n) = false := rfl

theorem hasNl_reset : hasNl Canvas.reset_color = false := rfl

theorem hasNl_fill_spaces (w m : Nat) : hasNl (Canvas.fill_spaces w m) = false := by
  rw [Canvas.fill_spaces]
  split_ifs <;> rfl

theorem hasNl_draw_textAux (ext : Ext) (cv : Canvas) (limit : Nat) :
    ∀ (text : List Char) (width : Nat),
    hasNl (Canvas.draw_textAux ext cv limit text width).1 = false := by
  intro text
  induction text with
  | nil => intro width; rfl
  | cons c cs ih =>
    intro width
    by_cases hc : c = '\t' ∧ 0 < cv.tab_width
    · by_cases hlt : limit < width + cv.tab_width
      · simp [Canvas.draw_textAux, if_pos hc, if_pos hlt, hasNl, Canvas.draw_spaces]
      · simp only [Canvas.draw_textAux, if_pos hc, if_neg hlt]
        simp [hasNl, Canvas.draw_spaces] at ih ⊢
        exact ih (width + cv.tab_width)
    · by_cases hlt : limit < width + ext.cw c
      · simp [Canvas.draw_textAux, if_neg hc, if_pos hlt, hasNl]
      · simp only [Canvas.draw_textAux, if_neg hc, if_neg hlt]
        simp [hasNl] at ih ⊢
        exact ih (width + ext.cw c)

end Hgrep

namespace Hgrep

theorem stAfter_append_reset (st : Bool) (a : List Out) :
    stAfter st (a ++ Canvas.reset_color) = true := by
  rw [stAfter_append]
  exact stAfter_reset _

/-- `hasNl` is false for an `if` whose both branches are newline-free. -/
theorem hasNl_ite (c : Prop) [Decidable c] (a b : List Out) (ha : hasNl a = false)
    (hb : hasNl b = false) : hasNl (if c then a else b) = false := by
  split_ifs <;> assumption

theorem hasNl_draw_textsAux (ext : Ext) (cv : Canvas) (matched : Bool) (max_width : Nat) :
    ∀ (parts : List (Style × List Char)) (idx width : Nat),
    hasNl (Canvas.draw_textsAux ext cv matched max_width parts idx width).1 = false := by
  intro parts
  induction parts with
  | nil => intro idx width; rfl
  | cons p ps ih =>
    obtain ⟨style, text⟩ := p
    intro idx width
    rcases hd : cv.draw_text ext text (max_width - width) with ⟨osd, std⟩
    have hdn : hasNl osd = false := by
      have h0 := hasNl_draw_textAux ext cv (max_width - width) text 0
      rw [show Canvas.draw_textAux ext cv (max_width - width) text 0 = (osd, std) from hd]
        at h0
      exact h0
    cases std with
    | cont w =>
      simp only [Canvas.draw_textsAux, hd]
      simp [hasNl_append, hasNl_set_fg, hasNl_set_font_style, hasNl_unset_font_style,
        hdn, ih]
      exact hasNl_ite _ _ _ (hasNl_set_bg ext cv style.background) rfl
    | brk rst =>
      simp only [Canvas.draw_textsAux, hd]
      simp [hasNl_append, hasNl_set_fg, hasNl_set_font_style, hasNl_reset, hdn]
      exact hasNl_ite _ _ _ (hasNl_set_bg ext cv style.background) rfl

theorem draw_textsAux_inr_ends_reset (ext : Ext) (cv : Canvas) (matched : Bool)
    (max_width : Nat) :
    ∀ (parts : List (Style × List Char)) (idx0 width0 : Nat) (os : List Out)
      (rest : List Char) (idx : Nat),
    Canvas.draw_textsAux ext cv matched max_width parts idx0 width0 =
      (os, Sum.inr (rest, idx)) →
    ∃ X, os = X ++ Canvas.reset_color := by
  intro parts
  induction parts with
  | nil => intro idx0 width0 os rest idx h; simp [Canvas.draw_textsAux] at h
  | cons p ps ih =>
    obtain ⟨style, text⟩ := p
    intro idx0 width0 os rest idx h
    rcases hd : cv.draw_text ext text (max_width - width0) with ⟨osd, std⟩
    simp only [Canvas.draw_textsAux, hd] at h
    cases std with
    | brk rst =>
      simp only [Prod.mk.injEq] at h
      obtain ⟨hos, -⟩ := h
      exact ⟨_, hos.symm⟩
    | cont w =>
      simp only [Prod.mk.injEq] at h
      rcases hrec : Canvas.draw_textsAux ext cv matched max_width ps (idx0 + 1)
          (width0 + w) with ⟨osr, str⟩
      rw [hrec] at h
      obtain ⟨hos, hstr0⟩ := h
      have hstr : str = Sum.inr (rest, idx) := hstr0
      subst hstr
      obtain ⟨X, hX⟩ := ih (idx0 + 1) (width0 + w) osr rest idx hrec
      rw [hX] at hos
      exact ⟨_, by rw [← hos, ← List.append_assoc]⟩

theorem draw_texts_shape (ext : Ext) (cv : Canvas) (matched : Bool) (max_width : Nat)
    (parts : List (Style × List Char)) (st : Bool) :
    okFrom st (cv.draw_texts ext parts matched max_width).1 = true ∧
    stAfter st (cv.draw_texts ext parts matched max_width).1 = true := by
  have hpre0 : hasNl (if matched then
      match cv.match_color with
      | some bg => cv.set_bg ext bg
      | none => []
      else []) = false := by
    split_ifs with h
    · cases cv.match_color with
      | none => rfl
      | some bg => exact hasNl_set_bg ext cv bg
    · rfl
  rcases haux : Canvas.draw_textsAux ext cv matched max_width parts 0 0 with ⟨os0, r0⟩
  have haux_nl : hasNl os0 = false := by
    have h0 := hasNl_draw_textsAux ext cv matched max_width parts 0 0
    rw [haux] at h0
    exact h0
  cases r0 with
  | inl wfin =>
    simp only [Canvas.draw_texts, haux]
    have htail : ∃ X, ((if wfin = 0 ∧ ¬matched then cv.set_default_bg ext else []) ++
        (if matched ∨ cv.background then Canvas.fill_spaces wfin max_width
          else Canvas.reset_color)) = X ++ Canvas.reset_color := by
      by_cases hmb : matched ∨ cv.background
      · rw [if_pos hmb, Canvas.fill_spaces, ← List.append_assoc]
        exact ⟨_, rfl⟩
      · rw [if_neg hmb]
        exact ⟨_, rfl⟩
    obtain ⟨X, hX⟩ := htail
    constructor
    · apply okFrom_of_no_nl
      simp [hasNl_append, hpre0, haux_nl]
      constructor
      · exact hasNl_ite _ _ _ (hasNl_set_default_bg ext cv) rfl
      · exact hasNl_ite _ _ _ (hasNl_fill_spaces _ _) hasNl_reset
    · rw [hX, ← List.append_assoc]
      exact stAfter_append_reset st _
  | inr pr =>
    obtain ⟨rst, i⟩ := pr
    simp only [Canvas.draw_texts, haux]
    obtain ⟨X, hX⟩ := draw_textsAux_inr_ends_reset ext cv matched max_width parts 0 0
      os0 rst i haux
    constructor
    · apply okFrom_of_no_nl
      simp [hasNl_append, hpre0, haux_nl]
    · rw [hX, ← List.append_assoc]
      exact stAfter_append_reset st _

end Hgrep

namespace Hgrep

theorem hasNl_draw_wrapping_gutter (ext : Ext) (d : Drawer) :
    hasNl (d.draw_wrapping_gutter ext) = false := by
  rw [Drawer.draw_wrapping_gutter]
  simp [hasNl_append, hasNl_set_fg, hasNl_set_default_bg, hasNl_draw_spaces]
  split_ifs <;> rfl

theorem hasNl_draw_line_number (ext : Ext) (d : Drawer) (lnum : Nat) (matched : Bool)
    (g : List Out) (h : d.draw_line_number ext lnum matched = some g) :
    hasNl g = false := by
  rw [Drawer.draw_line_number] at h
  rcases hf : (if matched then d.theme.settings.foreground else some d.gutter_color) with
    _ | fg
  · rw [hf] at h; simp at h
  · rw [hf] at h
    simp only [Option.some.injEq] at h
    rw [← h]
    have htxt : ∀ s, hasNl [Out.txt s] = false := fun s => rfl
    have hnil : hasNl ([] : List Out) = false := rfl
    simp only [hasNl_append, hasNl_set_fg, hasNl_set_default_bg, hasNl_draw_spaces, htxt,
      hnil, Bool.false_or, Bool.or_false]
    split_ifs <;>
      simp only [hasNl_append, hasNl_set_fg, htxt, hnil, Bool.false_or, Bool.or_false]

theorem draw_lineLoop_ok (ext : Ext) (d : Drawer) (matched : Bool) (body_width : Nat) :
    ∀ (fuel : Nat) (parts : List (Style × List Char)) (os : List Out) (st : Bool),
    Drawer.draw_lineLoop ext d matched body_width fuel parts = some os →
    okFrom st os = true ∧ stAfter st os = true := by
  intro fuel
  induction fuel with
  | zero => intro parts os st h; simp [Drawer.draw_lineLoop] at h
  | succ fuel ih =>
    intro parts os st h
    rcases hdt : d.canvas.draw_texts ext parts matched body_width with ⟨os0, r⟩
    have hshape := draw_texts_shape ext d.canvas matched body_width parts st
    rw [hdt] at hshape
    simp only [Drawer.draw_lineLoop, hdt] at h
    cases r with
    | done =>
      simp only [Option.some.injEq] at h
      rw [← h]
      constructor
      · rw [okFrom_append]
        rw [hshape.1, hshape.2]
        rfl
      · rw [stAfter_append, hshape.2]
        rfl
    | wrap rest idx =>
      split at h
      · rename_i heq
        simp at heq
      · rename_i os1 rest1 idx1 heq
        simp only [Prod.mk.injEq, LineDrawn.wrap.injEq] at heq
        obtain ⟨ho1, hr1, hi1⟩ := heq
        subst ho1
        subst hr1
        subst hi1
        rcases hrec : Drawer.draw_lineLoop ext d matched body_width fuel
            (Drawer.wrapAdvance parts rest idx) with _ | os2
        · rw [hrec] at h; simp at h
        · rw [hrec] at h
          simp only [Option.some.injEq] at h
          rw [← h]
          have hg := hasNl_draw_wrapping_gutter ext d
          obtain ⟨hok2, hst2⟩ := ih (Drawer.wrapAdvance parts rest idx) os2
            (stAfter true (d.draw_wrapping_gutter ext)) hrec
          constructor
          · rw [okFrom_append, okFrom_append, okFrom_append]
            rw [hshape.1]
            simp only [stAfter_append]
            rw [show stAfter st os0 = true from hshape.2]
            rw [show okFrom true [Out.nl] = true from rfl]
            rw [show stAfter true [Out.nl] = true from rfl]
            rw [okFrom_of_no_nl _ _ hg, hok2]
            rfl
          · simp only [stAfter_append]
            rw [show stAfter st os0 = true from hshape.2]
            rw [show stAfter true [Out.nl] = true from rfl]
            exact (ih (Drawer.wrapAdvance parts rest idx) os2 _ hrec).2

end Hgrep

namespace Hgrep

theorem okFrom_of_set_fg (ext : Ext) (cv : Canvas) (c : Color) (st : Bool) :
    okFrom st (cv.set_fg ext c) = true :=
  okFrom_of_no_nl _ st (hasNl_set_fg ext cv c)

theorem okFrom_of_set_default_bg (ext : Ext) (cv : Canvas) (st : Bool) :
    okFrom st (cv.set_default_bg ext) = true :=
  okFrom_of_no_nl _ st (hasNl_set_default_bg ext cv)

theorem okFrom_txt (st : Bool) (l : List Char) : okFrom st [Out.txt l] = true := rfl

theorem okFrom_esc (st : Bool) (s : String) : okFrom st [Out.esc s] = true := rfl

theorem okFrom_nil (st : Bool) : okFrom st [] = true := rfl

theorem okFrom_reset (st : Bool) : okFrom st Canvas.reset_color = true := rfl

theorem okFrom_fill_spaces (st : Bool) (w m : Nat) :
    okFrom st (Canvas.fill_spaces w m) = true :=
  okFrom_of_no_nl _ st (hasNl_fill_spaces w m)

theorem stAfter_fill_spaces (st : Bool) (w m : Nat) :
    stAfter st (Canvas.fill_spaces w m) = true := by
  rw [Canvas.fill_spaces]
  exact stAfter_append_reset st _

theorem okFrom_draw_spaces (st : Bool) (n : Nat) :
    okFrom st (Canvas.draw_spaces n) = true := rfl

theorem okFrom_draw_horizontal_line (ext : Ext) (d : Drawer) (sep : Char) (st : Bool) :
    okFrom st (d.draw_horizontal_line ext sep) = true := by
  rw [Drawer.draw_horizontal_line]
  simp only [okFrom_append, stAfter_append]
  simp only [okFrom_of_set_fg, okFrom_of_set_default_bg, okFrom_txt, okFrom_reset,
    Bool.true_and, Bool.and_true]
  rw [stAfter_reset]
  rfl

theorem stAfter_draw_horizontal_line (ext : Ext) (d : Drawer) (sep : Char) (st : Bool) :
    stAfter st (d.draw_horizontal_line ext sep) = true := by
  rw [Drawer.draw_horizontal_line]
  simp only [stAfter_append, stAfter_reset]
  rfl

theorem draw_line_ok (ext : Ext) (d : Drawer) (fuel : Nat)
    (parts : List (Style × List Char)) (lnum : Nat) (matched : Bool) (out : List Out)
    (h : Drawer.draw_line ext d fuel parts lnum matched = some out) (st : Bool) :
    okFrom st out = true ∧ stAfter st out = true := by
  rcases hg : d.draw_line_number ext lnum matched with _ | g
  · simp only [Drawer.draw_line, hg] at h
    simp at h
  · simp only [Drawer.draw_line, hg] at h
    rcases hb : Drawer.draw_lineLoop ext d matched (d.term_width - d.gutter_width) fuel
        (chompLastPart parts) with _ | body
    · rw [hb] at h; simp at h
    · rw [hb] at h
      simp only [Option.some.injEq] at h
      rw [← h]
      obtain ⟨hok, hst⟩ := draw_lineLoop_ok ext d matched (d.term_width - d.gutter_width)
        fuel (chompLastPart parts) body (stAfter st g) hb
      constructor
      · rw [okFrom_append, okFrom_of_no_nl _ _ (hasNl_draw_line_number ext d lnum matched g hg),
          hok]
        rfl
      · rw [stAfter_append, hst]

end Hgrep

namespace Hgrep

theorem draw_header_ok (ext : Ext) (d : Drawer) (path : String) (st : Bool) :
    okFrom st (d.draw_header ext path) = true ∧
    stAfter st (d.draw_header ext path) = true := by
  rw [Drawer.draw_header]
  by_cases hbg : d.background <;> by_cases hg : d.grid <;>
    simp only [hbg, hg, if_pos, if_neg, if_true, if_false, Bool.false_eq_true,
      not_false_eq_true, okFrom_append, stAfter_append, okFrom_of_set_default_bg,
      okFrom_txt, okFrom_esc, okFrom_nil, okFrom_reset, okFrom_fill_spaces,
      okFrom_draw_horizontal_line, stAfter_draw_horizontal_line, stAfter_fill_spaces,
      stAfter_reset, Canvas.set_bold, Bool.true_and, Bool.and_true] <;>
    constructor <;> first | rfl | trivial

theorem draw_footer_ok (ext : Ext) (d : Drawer) (st : Bool) :
    okFrom st (Drawer.draw_footer ext d) = true := by
  rw [Drawer.draw_footer]
  split_ifs
  · exact okFrom_draw_horizontal_line ext d '┴' st
  · rfl

theorem draw_bodyAux_ok_single (ext : Ext) (d : Drawer) (hl : Nat → List (Style × List Char))
    (fuel : Nat) :
    ∀ (lines : List (List Nat × Nat)) (chunk : Nat × Nat) (matched : List Nat)
      (os : List Out),
    Drawer.draw_bodyAux ext d hl fuel lines chunk [] matched = some os →
    okFrom true os = true ∧ stAfter true os = true := by
  intro lines
  induction lines with
  | nil =>
    intro chunk matched os h
    simp only [Drawer.draw_bodyAux, Option.some.injEq] at h
    rw [← h]
    exact ⟨rfl, rfl⟩
  | cons p rest ih =>
    obtain ⟨line, lnum⟩ := p
    intro chunk matched os h
    obtain ⟨s, e⟩ := chunk
    by_cases h1 : lnum < s
    · rw [Drawer.draw_bodyAux, if_pos h1] at h
      exact ih (s, e) matched os h
    · by_cases h2 : lnum ≤ e
      · simp only [Drawer.draw_bodyAux, if_neg h1, if_pos h2] at h
        split at h
        · simp at h
        · rename_i lineOut hdl
          by_cases h3 : lnum = e
          · rw [if_pos h3] at h
            simp only [Option.some.injEq] at h
            rw [← h]
            exact draw_line_ok ext d fuel (hl lnum) lnum _ lineOut hdl true
          · rw [if_neg h3] at h
            split at h
            · simp at h
            · rename_i os1 hrec
              simp only [Option.some.injEq] at h
              rw [← h]
              obtain ⟨hok1, hst1⟩ := ih (s, e) _ os1 hrec
              obtain ⟨hok0, hst0⟩ := draw_line_ok ext d fuel (hl lnum) lnum _ lineOut
                hdl true
              constructor
              · rw [okFrom_append, hok0, hst0, hok1]
                rfl
              · rw [stAfter_append, hst0, hst1]
      · rw [Drawer.draw_bodyAux, if_neg h1, if_neg h2] at h
        exact ih (s, e) matched os h

end Hgrep

namespace Hgrep

/-- C1 (counterexample): rendering a concrete two-chunk file (default
gutter color, true-color, grid) produces output whose chunk-separator line
is **not** escape-balanced — `draw_separator_line` deliberately emits no
`ESC[0m` before its newline, leaving the gutter foreground open. -/
theorem escape_balance_cex :
    Option.map balanced (renderFile sampleExt sampleOpts sampleTheme sampleHl 5
      twoChunkFile) = some false := by decide

/-- C1 (amended): for files with a single chunk — i.e. whenever no
chunk-separator line is drawn — every `\n` of the rendered output (header,
horizontal rules, body lines and wrap continuations) is written with the
terminal style reset to the default. -/
theorem escape_balance_single_chunk (ext : Ext) (opts : PrinterOptions) (theme : Theme)
    (hl : Nat → List (Style × List Char)) (fuel : Nat) (file : File) (chunk : Nat × Nat)
    (out : List Out) (hc : file.chunks = [chunk])
    (h : renderFile ext opts theme hl fuel file = some out) :
    balanced out = true := by
  simp only [renderFile, Drawer.draw_body, hc] at h
  rcases hb : Drawer.draw_bodyAux ext (Drawer.new opts theme [chunk]) hl fuel
      (linesInclusive file.contents) chunk [] file.line_numbers with _ | body
  · rw [hb] at h
    simp at h
  · rw [hb] at h
    simp only [Option.some.injEq] at h
    rw [← h]
    obtain ⟨hok, hst⟩ := draw_bodyAux_ok_single ext (Drawer.new opts theme [chunk]) hl
      fuel (linesInclusive file.contents) chunk file.line_numbers body hb
    obtain ⟨hhok, hhst⟩ := draw_header_ok ext (Drawer.new opts theme [chunk])
      file.path true
    rw [balanced, okFrom_append, okFrom_append, stAfter_append, hhok, hhst, hok, hst,
      draw_footer_ok ext (Drawer.new opts theme [chunk]) true]
    rfl

/-- Witness for C1 (amended) at a concrete single-chunk file. -/
theorem escape_balance_single_chunk_witness :
    balanced ((renderFile sampleExt sampleOpts sampleTheme sampleHl 5 oneChunkFile).getD
      [Out.nl]) = true :=
  escape_balance_single_chunk sampleExt sampleOpts sampleTheme sampleHl 5 oneChunkFile
    (1, 3) _ rfl (by rfl)

end Hgrep
